import Mathlib

/-!
Design-Patterns-LLD: state, chain of responsibility, flyweight.

A shallow embedding of six of the repository's demonstrations:

* `src/state.cpp` (the music player of the State pattern),
* `src/chain_of_responsibility.cpp` (the expense approval chain),
* `src/flyweight_pattern.cpp` (the player factory),
* `src/code.cpp` (the group of subscribers of the Observer pattern),
* `src/decorator.cpp` (the pizzas and their toppings),
* `src/factory_pattern.cpp` (the vehicle factory).

Objects created with `new` / `make_shared` live in a heap that is a list; the
address of an object is its index in that list, a null pointer is `none`.
A call through a pointer that holds no object has no defined result and is
`none`.  Text written to `cout` is collected line by line.
-/

/-! ## `src/state.cpp` -/

namespace StatePattern

/-- Dynamic class of a state object: the three concrete subclasses of the
abstract `MusicPlayerState`.  The classes have no data members. -/
inductive MusicPlayerState
  | StoppedState
  | PlayState
  | PausedState
  deriving DecidableEq, Repr

/-- The three buttons of the player: `pressPlay`, `pressPause`, `pressStop`. -/
inductive Action
  | Play
  | Pause
  | Stop
  deriving DecidableEq, Repr

/-- The heap of state objects and the lines written to `cout`. -/
structure World where
  heap : List MusicPlayerState
  out : List String
  deriving DecidableEq, Repr

/-- The data members of `class MusicPlayer`: four `MusicPlayerState*`. -/
structure MusicPlayer where
  pauseState : Nat
  playState : Nat
  stopState : Nat
  musicPlayerState : Nat
  deriving DecidableEq, Repr

/-- The expression `cout << line << endl`. -/
def cout (w : World) (line : String) : World :=
  { w with out := w.out ++ [line] }

/-- The expression `new C()`: the object is placed at the next free address. -/
def alloc (w : World) (c : MusicPlayerState) : Nat × World :=
  (w.heap.length, { w with heap := w.heap ++ [c] })

/-- The three overrides of `describe()`. -/
def MusicPlayerState.describe : MusicPlayerState → World → World
  | .StoppedState, w => cout w "Currently: Music Player is stopped."
  | .PlayState, w => cout w "Currently: Music Player is playing."
  | .PausedState, w => cout w "Currently: Music Player is paused."

/-- The call `musicPlayerState->describe()`, dispatched on the class of the
object the pointer holds. -/
def MusicPlayer.describeCurrent (p : MusicPlayer) (w : World) : Option World :=
  match w.heap[p.musicPlayerState]? with
  | some c => some (c.describe w)
  | none => none

/-- The method `MusicPlayer::changeState(state)`. -/
def MusicPlayer.changeState (p : MusicPlayer) (state : Nat) (w : World) :
    Option (MusicPlayer × World) :=
  let p1 := { p with musicPlayerState := state }
  match p1.describeCurrent w with
  | some w1 => some (p1, w1)
  | none => none

/-- The constructor `MusicPlayer::MusicPlayer()`. -/
def MusicPlayer.new (w : World) : Option (MusicPlayer × World) :=
  let (pauseState, w1) := alloc w .PausedState
  let (playState, w2) := alloc w1 .PlayState
  let (stopState, w3) := alloc w2 .StoppedState
  let p : MusicPlayer :=
    { pauseState := pauseState, playState := playState, stopState := stopState,
      musicPlayerState := stopState }
  match p.describeCurrent w3 with
  | some w4 => some (p, w4)
  | none => none

/-- The three overrides of `pressPlay(MusicPlayer*)`. -/
def MusicPlayerState.pressPlay :
    MusicPlayerState → MusicPlayer → World → Option (MusicPlayer × World)
  | .StoppedState, p, w => p.changeState p.playState (cout w "Playing music...")
  | .PlayState, p, w => some (p, cout w "Already playing.")
  | .PausedState, p, w => p.changeState p.playState (cout w "Resuming music...")

/-- The three overrides of `pressPause(MusicPlayer*)`. -/
def MusicPlayerState.pressPause :
    MusicPlayerState → MusicPlayer → World → Option (MusicPlayer × World)
  | .StoppedState, p, w => some (p, cout w "Cannot pause — music is not playing.")
  | .PlayState, p, w => p.changeState p.pauseState (cout w "Music paused.")
  | .PausedState, p, w => some (p, cout w "Already paused.")

/-- The three overrides of `pressStop(MusicPlayer*)`. -/
def MusicPlayerState.pressStop :
    MusicPlayerState → MusicPlayer → World → Option (MusicPlayer × World)
  | .StoppedState, p, w => some (p, cout w "Already stopped.")
  | .PlayState, p, w => p.changeState p.stopState (cout w "Music stopped.")
  | .PausedState, p, w => p.changeState p.stopState (cout w "Music stopped.")

/-- The method `MusicPlayer::pressPlay()`: delegate to the current state. -/
def MusicPlayer.pressPlay (p : MusicPlayer) (w : World) : Option (MusicPlayer × World) :=
  match w.heap[p.musicPlayerState]? with
  | some c => c.pressPlay p w
  | none => none

/-- The method `MusicPlayer::pressPause()`. -/
def MusicPlayer.pressPause (p : MusicPlayer) (w : World) : Option (MusicPlayer × World) :=
  match w.heap[p.musicPlayerState]? with
  | some c => c.pressPause p w
  | none => none

/-- The method `MusicPlayer::pressStop()`. -/
def MusicPlayer.pressStop (p : MusicPlayer) (w : World) : Option (MusicPlayer × World) :=
  match w.heap[p.musicPlayerState]? with
  | some c => c.pressStop p w
  | none => none

/-- One button press, by the name of the button. -/
def MusicPlayer.press (p : MusicPlayer) (w : World) : Action → Option (MusicPlayer × World)
  | .Play => p.pressPlay w
  | .Pause => p.pressPause w
  | .Stop => p.pressStop w

/-- A sequence of button presses, one after the other. -/
def MusicPlayer.pressAll (p : MusicPlayer) (w : World) : List Action → Option (MusicPlayer × World)
  | [] => some (p, w)
  | a :: rest =>
    match p.press w a with
    | some (p1, w1) => p1.pressAll w1 rest
    | none => none

/-- The player's own state object of a given class. -/
def MusicPlayer.own (p : MusicPlayer) : MusicPlayerState → Nat
  | .StoppedState => p.stopState
  | .PlayState => p.playState
  | .PausedState => p.pauseState

/-- The class of the object the current-state pointer holds. -/
def MusicPlayer.current (p : MusicPlayer) (w : World) : Option MusicPlayerState :=
  w.heap[p.musicPlayerState]?

/-- Each of the three state pointers holds an object of its class. -/
def MusicPlayer.Owns (p : MusicPlayer) (w : World) : Prop :=
  ∀ s : MusicPlayerState, w.heap[p.own s]? = some s

/-- The transition table of the specification. -/
def table : MusicPlayerState → Action → MusicPlayerState
  | .StoppedState, .Play => .PlayState
  | .PlayState, .Pause => .PausedState
  | .PlayState, .Stop => .StoppedState
  | .PausedState, .Play => .PlayState
  | .PausedState, .Stop => .StoppedState
  | s, _ => s

/-- The body of `main`: construct the player, then press Play, Pause, Play,
Stop.  The result lists the class of the current state after the constructor
and after each press, and the final world. -/
def main (w : World) : Option (List (Option MusicPlayerState) × World) :=
  match MusicPlayer.new w with
  | none => none
  | some (player, w0) =>
    match player.pressPlay w0 with
    | none => none
    | some (p1, w1) =>
      match p1.pressPause w1 with
      | none => none
      | some (p2, w2) =>
        match p2.pressPlay w2 with
        | none => none
        | some (p3, w3) =>
          match p3.pressStop w3 with
          | none => none
          | some (p4, w4) =>
            some ([player.current w0, p1.current w1, p2.current w2, p3.current w3,
              p4.current w4], w4)

end StatePattern

/-! ## `src/chain_of_responsibility.cpp` -/

namespace ChainOfResponsibility

/-- A value of type `double`: not-a-number, an infinity, or a finite value,
which is a rational number. -/
inductive Double
  | nan
  | negInf
  | posInf
  | finite (q : ℚ)
  deriving DecidableEq

/-- The comparison `x <= y` on `double`: false as soon as one side is
not-a-number. -/
def Double.le : Double → Double → Bool
  | .nan, _ => false
  | _, .nan => false
  | .negInf, _ => true
  | _, .posInf => true
  | .posInf, _ => false
  | _, .negInf => false
  | .finite a, .finite b => decide (a ≤ b)

/-- The comparison `x < y` on `double`. -/
def Double.lt : Double → Double → Bool
  | .nan, _ => false
  | _, .nan => false
  | .posInf, _ => false
  | _, .negInf => false
  | .negInf, _ => true
  | _, .posInf => true
  | .finite a, .finite b => decide (a < b)

/-- Dynamic class of an approver object. -/
inductive ApproverClass
  | Manager
  | Director
  | CEO
  deriving DecidableEq, Repr

/-- An approver object: its class and the member `nextApprover` of the base
class `Approver` (a `shared_ptr`, `none` when empty). -/
structure Approver where
  cls : ApproverClass
  nextApprover : Option Nat
  deriving DecidableEq, Repr

/-- What the program writes to `cout`: the line of `main` that announces a
request, and the approval line of a handler. -/
inductive Line
  | requesting (amount : Double)
  | approved (who : ApproverClass) (amount : Double)
  deriving DecidableEq

/-- The heap of approver objects, the lines written to `cout`, and the trace
of the objects on which `approve` was invoked, in order of invocation. -/
structure World where
  heap : List Approver
  out : List Line
  calls : List Nat
  deriving DecidableEq

/-- The expression `cout << ... << endl`. -/
def cout (w : World) (line : Line) : World :=
  { w with out := w.out ++ [line] }

/-- The expression `make_shared<C>()`: a new object with an empty
`nextApprover`, at the next free address. -/
def make_shared (c : ApproverClass) (w : World) : Nat × World :=
  (w.heap.length, { w with heap := w.heap ++ [⟨c, none⟩] })

/-- The method `Approver::setNext(next)` called on the object at `self`. -/
def setNext (self : Nat) (next : Option Nat) (w : World) : Option World :=
  match w.heap[self]? with
  | some o => some { w with heap := w.heap.set self { o with nextApprover := next } }
  | none => none

/-- The statement `if (nextApprover) nextApprover->approve(amount);` with the
recursive call passed in. -/
def forward (rec : Nat → Double → World → Option World) (next : Option Nat)
    (amount : Double) (w : World) : Option World :=
  match next with
  | some n => rec n amount w
  | none => some w

/-- The virtual method `approve(amount)` called on the object at `self`,
dispatched on its class.  The first argument bounds the depth of the calls
`nextApprover->approve(amount)`; `none` is returned when the bound is reached
or when a pointer holds no object. -/
def approve : Nat → Nat → Double → World → Option World
  | 0, _, _, _ => none
  | fuel + 1, self, amount, w =>
    match w.heap[self]? with
    | none => none
    | some o =>
      let w1 := { w with calls := w.calls ++ [self] }
      match o.cls with
      | .Manager =>
        if amount.le (.finite 1000) then some (cout w1 (.approved .Manager amount))
        else forward (approve fuel) o.nextApprover amount w1
      | .Director =>
        if amount.le (.finite 10000) then some (cout w1 (.approved .Director amount))
        else forward (approve fuel) o.nextApprover amount w1
      | .CEO => some (cout w1 (.approved .CEO amount))

/-- The first statements of `main`: create the three approvers and link them
Manager → Director → CEO.  The result is the address of the manager. -/
def buildChain (w : World) : Option (Nat × World) :=
  let (manager, w1) := make_shared .Manager w
  let (director, w2) := make_shared .Director w1
  let (ceo, w3) := make_shared .CEO w2
  match setNext manager (some director) w3 with
  | none => none
  | some w4 =>
    match setNext director (some ceo) w4 with
    | none => none
    | some w5 => some (manager, w5)

/-- The loop of `main` over the array `expenses`. -/
def requestAll (fuel : Nat) (manager : Nat) : List Double → World → Option World
  | [], w => some w
  | amount :: rest, w =>
    match approve fuel manager amount (cout w (.requesting amount)) with
    | some w1 => requestAll fuel manager rest w1
    | none => none

/-- The function `main`. -/
def main (fuel : Nat) (w : World) : Option World :=
  match buildChain w with
  | none => none
  | some (manager, w1) =>
    requestAll fuel manager [.finite 500, .finite 3000, .finite 20000] w1

/-- The if-else ladder that the file's comment gives as the code without the
pattern: which approver handles an amount. -/
def ladder (amount : Double) : ApproverClass :=
  if amount.le (.finite 1000) then .Manager
  else if amount.le (.finite 10000) then .Director
  else .CEO

/-- The limit of a handler class: whether it approves the amount itself. -/
def admits : ApproverClass → Double → Bool
  | .Manager, amount => amount.le (.finite 1000)
  | .Director, amount => amount.le (.finite 10000)
  | .CEO, _ => true

/-- The list `path` is the chain that starts at the pointer `start`: its
addresses hold objects, each is linked to the following one by
`nextApprover`, and the last one has an empty `nextApprover`.  Such a chain is
finite and ends, so no object is linked back to an earlier one. -/
def IsChain (heap : List Approver) : Option Nat → List Nat → Prop
  | none, [] => True
  | none, _ :: _ => False
  | some _, [] => False
  | some a, b :: rest =>
    a = b ∧
    match heap[a]? with
    | some o => IsChain heap o.nextApprover rest
    | none => False

/-- The class of the object at an address, if there is one. -/
def classAt (heap : List Approver) (a : Nat) : Option ApproverClass :=
  (heap[a]?).map (fun o => o.cls)

/-- Whether the object at an address approves the amount itself. -/
def admitsAt (heap : List Approver) (amount : Double) (a : Nat) : Bool :=
  match heap[a]? with
  | some o => admits o.cls amount
  | none => false

end ChainOfResponsibility

/-! ## `src/flyweight_pattern.cpp` -/

namespace Flyweight

/-- The data members of `class PlayerFlyweight`. -/
structure PlayerFlyweight where
  name : String
  bowlingtype : String
  battingtype : String
  deriving DecidableEq, Repr

/-- The heap of `PlayerFlyweight` objects and the lines written to `cout`. -/
structure World where
  heap : List PlayerFlyweight
  out : List String
  deriving DecidableEq, Repr

/-- An `unordered_map<string, PlayerFlyweight*>`: its entries.  A pointer is
`none` when null. -/
abbrev UMap := List (String × Option Nat)

/-- The call `mp.find(key)`: `none` stands for `mp.end()`, otherwise the
mapped pointer of the entry. -/
def UMap.find (mp : UMap) (key : String) : Option (Option Nat) :=
  match mp with
  | [] => none
  | (k, v) :: rest => if k = key then some v else UMap.find rest key

/-- The assignment `mp[key] = v`: the entry of the key gets the value, and is
added when the key has none. -/
def UMap.assign (mp : UMap) (key : String) (v : Option Nat) : UMap :=
  match mp with
  | [] => [(key, v)]
  | (k, v0) :: rest => if k = key then (k, v) :: rest else (k, v0) :: UMap.assign rest key v

/-- The read `mp[key]`: the mapped pointer of the key; a key without an entry
gets one that holds a null pointer. -/
def UMap.index (mp : UMap) (key : String) : Option Nat × UMap :=
  match UMap.find mp key with
  | some v => (v, mp)
  | none => (none, UMap.assign mp key none)

/-- The call `mp.size()`: the number of entries. -/
def UMap.size (mp : UMap) : Nat :=
  mp.length

/-- The data members of `class PlayerFactory`. -/
structure PlayerFactory where
  p : List (Option Nat)
  mp : UMap
  deriving DecidableEq, Repr

/-- The expression `cout << line << endl`. -/
def cout (w : World) (line : String) : World :=
  { w with out := w.out ++ [line] }

/-- The expression `new PlayerFlyweight(name, bowlingtype, battingtype)`: the
constructor stores the three attributes. -/
def alloc (w : World) (name bowlingtype battingtype : String) : Nat × World :=
  (w.heap.length, { w with heap := w.heap ++ [⟨name, bowlingtype, battingtype⟩] })

/-- The key `name + '-' + bowlingtype + '-' + battingtype` of `getPlayer`. -/
def hashKey (name bowlingtype battingtype : String) : String :=
  ((name.push '-' ++ bowlingtype).push '-') ++ battingtype

/-- The method `PlayerFactory::getPlayer(name, bowlingtype, battingtype)`: the
returned pointer, the factory and the world after the call. -/
def PlayerFactory.getPlayer (f : PlayerFactory) (name bowlingtype battingtype : String)
    (w : World) : Option Nat × PlayerFactory × World :=
  let hash := hashKey name bowlingtype battingtype
  let (f1, w1) :=
    if UMap.find f.mp hash = none then
      let (player, w1) := alloc w name bowlingtype battingtype
      let w2 := cout w1 "New object created"
      ({ f with mp := UMap.assign f.mp hash (some player) }, w2)
    else (f, w)
  let (r, mp2) := UMap.index f1.mp hash
  (r, { f1 with mp := mp2 }, w1)

/-- Every entry of the map holds a pointer to an object of the heap whose
three attributes give the key of the entry. -/
def PlayerFactory.Consistent (f : PlayerFactory) (w : World) : Prop :=
  ∀ key v, UMap.find f.mp key = some v →
    ∃ a o, v = some a ∧ w.heap[a]? = some o ∧
      hashKey o.name o.bowlingtype o.battingtype = key

/-- The expression `new PlayerFactory()`: both containers are empty. -/
def PlayerFactory.new : PlayerFactory :=
  { p := [], mp := [] }

/-- A request: the three arguments of one `getPlayer` call. -/
abbrev Request := String × String × String

/-- A sequence of `getPlayer` calls on one factory: the pointers returned, in
call order, and the factory and world after the last call. -/
def getPlayers (f : PlayerFactory) (w : World) :
    List Request → List (Option Nat) × PlayerFactory × World
  | [] => ([], f, w)
  | (name, bowlingtype, battingtype) :: rest =>
    let (r, f1, w1) := f.getPlayer name bowlingtype battingtype w
    let (rs, f2, w2) := getPlayers f1 w1 rest
    (r :: rs, f2, w2)

/-- The method `PlayerFlyweight::display(runs, wickets)`: one line is written;
the object is only read. -/
def PlayerFlyweight.display (self : PlayerFlyweight) (runs wickets : Int) (w : World) : World :=
  cout w (self.name ++ " scored " ++ toString runs ++ " and took " ++ toString wickets)

/-- The call `ptr->display(runs, wickets)` through a pointer. -/
def displayAt (ptr : Option Nat) (runs wickets : Int) (w : World) : Option World :=
  match ptr with
  | none => none
  | some a =>
    match w.heap[a]? with
    | some o => some (o.display runs wickets w)
    | none => none

/-- The function `main`: the three pointers `first`, `second`, `third` and the
world at the end. -/
def main (w : World) : Option (List (Option Nat) × World) :=
  let pf := PlayerFactory.new
  let (first, pf1, w1) := pf.getPlayer "Virat Kohli" "Right arm medium" "Right hand" w
  let (second, pf2, w2) := pf1.getPlayer "Umesh Yadav" "Right arm fast" "Right hand" w1
  match displayAt first 40 0 w2 with
  | none => none
  | some w3 =>
    match displayAt second 0 4 w3 with
    | none => none
    | some w4 =>
      let (third, _, w5) := pf2.getPlayer "Virat Kohli" "Right arm medium" "Right hand" w4
      some ([first, second, third], w5)

end Flyweight

/-! ## `src/code.cpp` -/

namespace Observer

/-- The data members of `class User`. -/
structure User where
  id : Int
  name : String
  deriving DecidableEq, Repr

/-- The heap of `User` objects, the lines written to `cout`, and the trace of
the objects on which `notify` was invoked, in order of invocation. -/
structure World where
  heap : List User
  out : List String
  calls : List Nat
  deriving DecidableEq, Repr

/-- The data members of `class Group`: the vector of `ISubscriber*`, each an
address, and the name. -/
structure Group where
  users : List Nat
  name : String
  deriving DecidableEq, Repr

/-- The expression `cout << ... << endl`. -/
def cout (w : World) (line : String) : World :=
  { w with out := w.out ++ [line] }

/-- The expression `new User(id)`: the constructor stores the id and leaves
the name empty. -/
def User.new (id : Int) (w : World) : Nat × World :=
  (w.heap.length, { w with heap := w.heap ++ [⟨id, ""⟩] })

/-- The constructor `Group::Group(name)`: no subscribers yet. -/
def Group.new (name : String) : Group :=
  { users := [], name := name }

/-- The method `User::notify(msg)`: one line with the id; the message is not
used. -/
def User.notify (self : User) (_msg : String) (w : World) : World :=
  cout w ("This user with id " ++ toString self.id ++ " has been notified")

/-- The loop of `Group::notify` over the entries `users[i]` that are left:
the call `users[i]->notify(msg)` for each, in order of the index. -/
def notifyLoop (msg : String) : List Nat → World → Option World
  | [], w => some w
  | u :: rest, w =>
    match w.heap[u]? with
    | some o => notifyLoop msg rest (o.notify msg { w with calls := w.calls ++ [u] })
    | none => none

/-- The method `Group::notify(msg)`. -/
def Group.notify (g : Group) (msg : String) (w : World) : Option World :=
  notifyLoop msg g.users w

/-- The method `Group::subscribe(user)`: `users.push_back(user)`. -/
def Group.subscribe (g : Group) (user : Nat) : Group :=
  { g with users := g.users ++ [user] }

/-- The loop of `Group::unsubscribe` over the entries `users[i]` that are
left, with the vector `temp` built so far: an entry equal to `user` is
skipped, any other is pushed to the back of `temp`. -/
def unsubscribeLoop (user : Nat) : List Nat → List Nat → List Nat
  | [], temp => temp
  | u :: rest, temp =>
    if u = user then unsubscribeLoop user rest temp
    else unsubscribeLoop user rest (temp ++ [u])

/-- The method `Group::unsubscribe(user)`: `temp` starts empty and is assigned
to `users` after the loop. -/
def Group.unsubscribe (g : Group) (user : Nat) : Group :=
  { g with users := unsubscribeLoop user g.users [] }

/-- The function `main`.  The source calls `group->notify()` without the
message, which `User::notify` does not use; the message is a parameter here. -/
def main (msg : String) (w : World) : Option World :=
  let group := Group.new "temp"
  let (user1, w1) := User.new 1 w
  let (user2, w2) := User.new 2 w1
  let (user3, w3) := User.new 3 w2
  let group := group.subscribe user1
  let group := group.subscribe user2
  let group := group.subscribe user3
  match group.notify msg w3 with
  | none => none
  | some w4 =>
    let group := group.unsubscribe user2
    group.notify msg w4

/-- The line that `User::notify` writes for the object at an address. -/
def lineAt (w : World) (a : Nat) : Option String :=
  (w.heap[a]?).map (fun o => "This user with id " ++ toString o.id ++ " has been notified")

end Observer

/-! ## `src/decorator.cpp` -/

namespace Decorator

/-- The least value of type `int` (32 bits). -/
def INT_MIN : Int := -2147483648

/-- The greatest value of type `int` (32 bits). -/
def INT_MAX : Int := 2147483647

/-- The sum `x + y` of two `int`: it has a value when the sum of the two
numbers is a value of `int`; signed overflow has no defined result. -/
def addInt (x y : Int) : Option Int :=
  if INT_MIN ≤ x + y ∧ x + y ≤ INT_MAX then some (x + y) else none

/-- A pizza object.  A decorator holds the pointer `pizza` that its
constructor got and never changes it, so the object is given with what it
wraps. -/
inductive BasePizza
  | Margerita (cost : Int)
  | Farmhouse (cost : Int)
  | PizzaDecorator (pizza : BasePizza)
  | CheeseTopping (pizza : BasePizza) (cost : Int)
  | PaneerTopping (pizza : BasePizza) (cost : Int)
  deriving DecidableEq, Repr

/-- The overrides of `price()`. -/
def BasePizza.price : BasePizza → Option Int
  | .Margerita cost => some cost
  | .Farmhouse cost => some cost
  | .PizzaDecorator pizza => pizza.price
  | .CheeseTopping pizza cost =>
    match pizza.price with
    | some p => addInt p cost
    | none => none
  | .PaneerTopping pizza cost =>
    match pizza.price with
    | some p => addInt p cost
    | none => none

/-- The overrides of `description()`: the text is added to what `cout` holds. -/
def BasePizza.description : BasePizza → String → String
  | .Margerita _, out => out ++ "This is a Margerita Pizza"
  | .Farmhouse _, out => out ++ "This is a Farmhouse Pizza"
  | .PizzaDecorator pizza, out => pizza.description out
  | .CheeseTopping pizza _, out => pizza.description out ++ " with added Cheese Topping"
  | .PaneerTopping pizza _, out => pizza.description out ++ " with added Paneer Topping"

/-- The two statements `pizza->description(); cout << " -> Price: " <<
pizza->price() << endl;` of `main`. -/
def printPizza (pizza : BasePizza) (out : String) : Option String :=
  match pizza.price with
  | some p => some (pizza.description out ++ " -> Price: " ++ toString p ++ "\n")
  | none => none

/-- The function `main`: the text written to `cout`. -/
def main (out : String) : Option String :=
  let pizza := BasePizza.Margerita 150
  match printPizza pizza out with
  | none => none
  | some out1 =>
    let pizza := BasePizza.CheeseTopping pizza 10
    match printPizza pizza out1 with
    | none => none
    | some out2 =>
      let pizza := BasePizza.PaneerTopping pizza 20
      printPizza pizza out2

/-- One of the two toppings, with its cost. -/
inductive Topping
  | Cheese (cost : Int)
  | Paneer (cost : Int)
  deriving DecidableEq, Repr

/-- The cost of a topping. -/
def Topping.cost : Topping → Int
  | .Cheese cost => cost
  | .Paneer cost => cost

/-- The expression `new CheeseTopping(pizza, cost)` or
`new PaneerTopping(pizza, cost)`. -/
def Topping.wrap : Topping → BasePizza → BasePizza
  | .Cheese cost, pizza => .CheeseTopping pizza cost
  | .Paneer cost, pizza => .PaneerTopping pizza cost

/-- A sequence of toppings wrapped around a pizza, the first one innermost. -/
def decorate (pizza : BasePizza) : List Topping → BasePizza
  | [] => pizza
  | t :: rest => decorate (t.wrap pizza) rest

/-- The sum of the costs of a sequence of toppings, over the integers. -/
def totalCost (toppings : List Topping) : Int :=
  (toppings.map Topping.cost).sum

/-- Every sum that `price()` forms for the sequence, from the cost `c` of the
base pizza on, is a value of `int`. -/
def Fits (c : Int) (toppings : List Topping) : Prop :=
  ∀ k, k ≤ toppings.length →
    INT_MIN ≤ c + totalCost (toppings.take k) ∧ c + totalCost (toppings.take k) ≤ INT_MAX

end Decorator

/-! ## `src/factory_pattern.cpp` -/

namespace FactoryPattern

/-- Dynamic class of a vehicle object: the two subclasses of the abstract
`Vehicle`. -/
inductive Vehicle
  | Car
  | Bus
  deriving DecidableEq, Repr

/-- The heap of vehicle objects and the lines written to `cout`. -/
structure World where
  heap : List Vehicle
  out : List String
  deriving DecidableEq, Repr

/-- The expression `cout << line << endl`. -/
def cout (w : World) (line : String) : World :=
  { w with out := w.out ++ [line] }

/-- The expression `new C()`: the object is placed at the next free address. -/
def alloc (w : World) (c : Vehicle) : Nat × World :=
  (w.heap.length, { w with heap := w.heap ++ [c] })

/-- The two overrides of `drive()`. -/
def Vehicle.drive : Vehicle → World → World
  | .Car, w => cout w "Car is driving"
  | .Bus, w => cout w "Bus is driving"

/-- The function `VehicleFactory::createVehicle(vehicleType)`.  The local
`vehicle` is declared without a value; the returned pointer is `none` when no
branch assigned one. -/
def createVehicle (vehicleType : String) (w : World) : Option Nat × World :=
  if vehicleType = "Car" then
    let (vehicle, w1) := alloc w .Car
    (some vehicle, w1)
  else if vehicleType = "Bus" then
    let (vehicle, w1) := alloc w .Bus
    (some vehicle, w1)
  else (none, w)

/-- The function `main` for the word `vtype` read from `cin`.  The call
`vehicle->drive()` through a pointer without a value has no defined result. -/
def main (vtype : String) (w : World) : Option World :=
  let (vehicle, w1) := createVehicle vtype w
  match vehicle with
  | none => none
  | some a =>
    match w1.heap[a]? with
    | some v => some (v.drive w1)
    | none => none

end FactoryPattern

/-! ## Theorems on `src/state.cpp` -/

/-- Three objects allocated one after the other are found at the three
addresses that follow the old heap. -/
theorem getElem?_append_three {α : Type} (l : List α) (a b c : α) :
    (l ++ [a, b, c])[l.length]? = some a ∧ (l ++ [a, b, c])[l.length + 1]? = some b ∧
    (l ++ [a, b, c])[l.length + 2]? = some c := by
  refine ⟨?_, ?_, ?_⟩
  · rw [List.getElem?_append_right (le_refl _)]; simp
  · rw [List.getElem?_append_right (Nat.le_add_right _ _)]; simp
  · rw [List.getElem?_append_right (Nat.le_add_right _ _)]; simp

namespace StatePattern

/-- The constructor in closed form: three objects are added to the heap, the
current state is the stopped one, and its description is printed. -/
theorem new_eq (w : World) :
    MusicPlayer.new w = some
      ({ pauseState := w.heap.length, playState := w.heap.length + 1,
         stopState := w.heap.length + 2, musicPlayerState := w.heap.length + 2 },
       { heap := w.heap ++ [.PausedState, .PlayState, .StoppedState],
         out := w.out ++ ["Currently: Music Player is stopped."] }) := by
  obtain ⟨_, _, h3⟩ := getElem?_append_three w.heap .PausedState .PlayState .StoppedState
  simp [MusicPlayer.new, alloc, MusicPlayer.describeCurrent, h3, MusicPlayerState.describe, cout]

/-- The constructor leaves each of the three pointers on an object of its class. -/
theorem new_owns (w : World) (p : MusicPlayer) (w0 : World)
    (h : MusicPlayer.new w = some (p, w0)) : p.Owns w0 ∧ p.musicPlayerState = p.stopState := by
  rw [new_eq] at h
  obtain ⟨h1, h2, h3⟩ := getElem?_append_three w.heap .PausedState .PlayState .StoppedState
  simp only [Option.some.injEq, Prod.mk.injEq] at h
  obtain ⟨rfl, rfl⟩ := h
  refine ⟨?_, rfl⟩
  intro s
  cases s <;> simp [MusicPlayer.own, h1, h2, h3]

/-- One press from a state of the player, in closed form. -/
theorem press_eq (p : MusicPlayer) (w : World) (s : MusicPlayerState) (a : Action)
    (hown : p.Owns w) (hs : p.musicPlayerState = p.own s) :
    ∃ w1, p.press w a = some ({ p with musicPlayerState := p.own (table s a) }, w1) ∧
      w1.heap = w.heap := by
  have hS := hown .StoppedState
  have hP := hown .PlayState
  have hU := hown .PausedState
  simp only [MusicPlayer.own] at hS hP hU
  obtain ⟨pa, pl, st, cur⟩ := p
  simp only [MusicPlayer.own] at hs hS hP hU
  cases s <;> cases a <;> simp only [MusicPlayer.own] at hs <;> subst hs <;>
    simp [MusicPlayer.press, MusicPlayer.pressPlay, MusicPlayer.pressPause,
      MusicPlayer.pressStop, MusicPlayerState.pressPlay, MusicPlayerState.pressPause,
      MusicPlayerState.pressStop, MusicPlayer.changeState, MusicPlayer.describeCurrent,
      MusicPlayerState.describe, cout, table, MusicPlayer.own, hS, hP, hU]

/-- The three own objects of a player are at three different addresses. -/
theorem own_injective (p : MusicPlayer) (w : World) (hown : p.Owns w) :
    Function.Injective p.own := by
  intro s t hst
  have h1 := hown s
  have h2 := hown t
  rw [hst, h2] at h1
  exact (Option.some.inj h1).symm

/-- Claim C1: for a player whose three pointers hold objects of their classes
and whose current state is its own object of class `s`, pressing the button `a`
returns, leaves the three pointers and the heap as they are, and makes the
current state the player's own object of class `table s a`: Playing for
(Stopped, Play), Paused for (Playing, Pause), Stopped for (Playing, Stop),
Playing for (Paused, Play), Stopped for (Paused, Stop), and `s` itself for the
four other pairs. -/
theorem C1_transition_table (p : MusicPlayer) (w : World) (s : MusicPlayerState) (a : Action)
    (hown : p.Owns w) (hs : p.musicPlayerState = p.own s) :
    (∃ p1 w1, p.press w a = some (p1, w1) ∧
      p1.musicPlayerState = p.own (table s a) ∧ p1.current w1 = some (table s a) ∧
      p1.pauseState = p.pauseState ∧ p1.playState = p.playState ∧
      p1.stopState = p.stopState ∧ w1.heap = w.heap) ∧
    table .StoppedState .Play = .PlayState ∧ table .PlayState .Pause = .PausedState ∧
    table .PlayState .Stop = .StoppedState ∧ table .PausedState .Play = .PlayState ∧
    table .PausedState .Stop = .StoppedState ∧ table .StoppedState .Pause = .StoppedState ∧
    table .StoppedState .Stop = .StoppedState ∧ table .PlayState .Play = .PlayState ∧
    table .PausedState .Pause = .PausedState := by
  refine ⟨?_, rfl, rfl, rfl, rfl, rfl, rfl, rfl, rfl, rfl⟩
  obtain ⟨w1, h, hheap⟩ := press_eq p w s a hown hs
  refine ⟨_, w1, h, rfl, ?_, rfl, rfl, rfl, hheap⟩
  simp only [MusicPlayer.current, hheap]
  exact hown (table s a)

/-- Claim C1 at the player that the constructor builds in an empty world, in
state Stopped, for the button Play. -/
theorem C1_transition_table_witness :
    (∃ p1 w1, (MusicPlayer.mk 0 1 2 2).press
        ⟨[.PausedState, .PlayState, .StoppedState], []⟩ .Play = some (p1, w1) ∧
      p1.musicPlayerState = 1 ∧ p1.current w1 = some .PlayState) := by
  obtain ⟨⟨p1, w1, h, h1, h2, _⟩, _⟩ :=
    C1_transition_table (MusicPlayer.mk 0 1 2 2)
      ⟨[.PausedState, .PlayState, .StoppedState], []⟩ .StoppedState .Play
      (by intro s; cases s <;> rfl) rfl
  exact ⟨p1, w1, h, h1, h2⟩

/-- Claim C2: `main` run in any world returns; the player is Stopped after the
constructor and Playing, Paused, Playing, Stopped after the presses Play,
Pause, Play, Stop; the lines written are those of the expected output, with
the descriptions in the order stopped, playing, paused, playing, stopped. -/
theorem C2_demo_sequence (w : World) :
    main w = some
      ([some .StoppedState, some .PlayState, some .PausedState, some .PlayState,
        some .StoppedState],
       { heap := w.heap ++ [.PausedState, .PlayState, .StoppedState],
         out := w.out ++
           ["Currently: Music Player is stopped.",
            "Playing music...",
            "Currently: Music Player is playing.",
            "Music paused.",
            "Currently: Music Player is paused.",
            "Resuming music...",
            "Currently: Music Player is playing.",
            "Music stopped.",
            "Currently: Music Player is stopped."] }) := by
  obtain ⟨h1, h2, h3⟩ := getElem?_append_three w.heap .PausedState .PlayState .StoppedState
  simp [main, new_eq, MusicPlayer.pressPlay, MusicPlayer.pressPause,
      MusicPlayer.pressStop, MusicPlayerState.pressPlay, MusicPlayerState.pressPause,
      MusicPlayerState.pressStop, MusicPlayer.changeState, MusicPlayer.describeCurrent,
      MusicPlayerState.describe, cout, MusicPlayer.current, h1, h2, h3]

/-- A sequence of presses from a state of the player returns and ends in one
of the player's own states. -/
theorem pressAll_owns (acts : List Action) :
    ∀ (p : MusicPlayer) (w : World) (s : MusicPlayerState), p.Owns w →
      p.musicPlayerState = p.own s →
      ∃ p1 w1 s1, p.pressAll w acts = some (p1, w1) ∧ p1.Owns w1 ∧
        p1.musicPlayerState = p1.own s1 ∧ p1.pauseState = p.pauseState ∧
        p1.playState = p.playState ∧ p1.stopState = p.stopState ∧ w1.heap = w.heap := by
  induction acts with
  | nil =>
    intro p w s hown hs
    exact ⟨p, w, s, rfl, hown, hs, rfl, rfl, rfl, rfl⟩
  | cons a rest ih =>
    intro p w s hown hs
    obtain ⟨w1, h, hheap⟩ := press_eq p w s a hown hs
    have hown1 : ({ p with musicPlayerState := p.own (table s a) } : MusicPlayer).Owns w1 := by
      intro t
      rw [hheap]
      exact hown t
    obtain ⟨p2, w2, s2, h2, hown2, hs2, e1, e2, e3, e4⟩ :=
      ih { p with musicPlayerState := p.own (table s a) } w1 (table s a) hown1 rfl
    refine ⟨p2, w2, s2, ?_, hown2, hs2, e1, e2, e3, e4.trans hheap⟩
    simp only [MusicPlayer.pressAll, h]
    exact h2

/-- Claim C3: for every world and every finite sequence of presses, the
constructor returns and the presses applied to the new player all return; the
three state pointers are still those the constructor set, they hold objects
of the three classes at three different addresses, and the current state is
exactly one of them. -/
theorem C3_always_in_own_state (w : World) (acts : List Action) :
    ∃ p0 w0 p1 w1, MusicPlayer.new w = some (p0, w0) ∧
      p0.pressAll w0 acts = some (p1, w1) ∧
      p1.pauseState = p0.pauseState ∧ p1.playState = p0.playState ∧
      p1.stopState = p0.stopState ∧
      p1.Owns w1 ∧ Function.Injective p1.own ∧
      (∃! s, p1.musicPlayerState = p1.own s) ∧
      (∃ s, p1.current w1 = some s) ∧
      ∀ s a, ∃ p2 w2, ({ p1 with musicPlayerState := p1.own s } : MusicPlayer).press w1 a
        = some (p2, w2) := by
  obtain ⟨hown0, hcur0⟩ := new_owns w _ _ (new_eq w)
  obtain ⟨p1, w1, s1, h, hown1, hs1, e1, e2, e3, _⟩ :=
    pressAll_owns acts _ _ .StoppedState hown0 hcur0
  refine ⟨_, _, p1, w1, new_eq w, h, e1, e2, e3, hown1, own_injective p1 w1 hown1,
    ⟨s1, hs1, ?_⟩, ⟨s1, ?_⟩, ?_⟩
  · intro t ht
    exact own_injective p1 w1 hown1 (ht.symm.trans hs1)
  · simp only [MusicPlayer.current, hs1]
    exact hown1 s1
  · intro s a
    obtain ⟨w2, h2, _⟩ := press_eq { p1 with musicPlayerState := p1.own s } w1 s a
      (fun t => hown1 t) rfl
    exact ⟨_, w2, h2⟩

/-- A press from a state in which the table keeps the player writes one line
of refusal and changes nothing else. -/
theorem press_rejected (p : MusicPlayer) (w : World) (s : MusicPlayerState) (a : Action)
    (hown : p.Owns w) (hs : p.musicPlayerState = p.own s) (hstay : table s a = s) :
    ∃ line, p.press w a = some (p, cout w line) ∧
      line ∈ ["Already playing.", "Cannot pause — music is not playing.", "Already paused.",
        "Already stopped."] := by
  have hcur : w.heap[p.musicPlayerState]? = some s := by rw [hs]; exact hown s
  cases s <;> cases a <;> simp [table] at hstay <;>
    simp only [MusicPlayer.press, MusicPlayer.pressPlay, MusicPlayer.pressPause,
      MusicPlayer.pressStop, MusicPlayerState.pressPlay, MusicPlayerState.pressPause,
      MusicPlayerState.pressStop, hcur] <;>
    exact ⟨_, rfl, by simp⟩

/-- Claim C14: for a player in its own state of class `s` and every button
`a`, pressing `a` and pressing it again both return; the state after the
second press is the state after the first, the one of the table; the second
press changes neither the player nor the heap and writes exactly one line,
one of the four lines of refusal, which does not begin with "Currently:":
`changeState`, which always writes such a line, is not called. -/
theorem C14_press_idempotent (p : MusicPlayer) (w : World) (s : MusicPlayerState) (a : Action)
    (hown : p.Owns w) (hs : p.musicPlayerState = p.own s) :
    ∃ p1 w1 w2 line, p.press w a = some (p1, w1) ∧ p1.press w1 a = some (p1, w2) ∧
      p1.musicPlayerState = p.own (table s a) ∧ table (table s a) a = table s a ∧
      p1.current w2 = some (table s a) ∧
      w2.heap = w1.heap ∧ w2.out = w1.out ++ [line] ∧
      line ∈ ["Already playing.", "Cannot pause — music is not playing.", "Already paused.",
        "Already stopped."] ∧
      ¬ ("Currently:".data <+: line.data) := by
  obtain ⟨w1, h1, hheap⟩ := press_eq p w s a hown hs
  have hown1 : ({ p with musicPlayerState := p.own (table s a) } : MusicPlayer).Owns w1 := by
    intro t
    rw [hheap]
    exact hown t
  have hidem : table (table s a) a = table s a := by cases s <;> cases a <;> rfl
  obtain ⟨line, h2, hline⟩ := press_rejected _ w1 (table s a) a hown1 rfl hidem
  refine ⟨_, w1, cout w1 line, line, h1, h2, rfl, hidem, ?_, rfl, rfl, hline, ?_⟩
  · simp only [MusicPlayer.current, cout, hheap]
    exact hown (table s a)
  · have hall : ∀ l ∈ ["Already playing.", "Cannot pause — music is not playing.",
        "Already paused.", "Already stopped."], ¬ ("Currently:".data <+: l.data) := by decide
    exact hall line hline

/-- Claim C14 at the player that the constructor builds in an empty world, in
state Stopped, for the button Play pressed twice. -/
theorem C14_press_idempotent_witness :
    ∃ p1 w1 w2, (MusicPlayer.mk 0 1 2 2).press
        ⟨[.PausedState, .PlayState, .StoppedState], []⟩ .Play = some (p1, w1) ∧
      p1.press w1 .Play = some (p1, w2) ∧ p1.current w2 = some .PlayState ∧
      w2.out.length = w1.out.length + 1 := by
  obtain ⟨p1, w1, w2, line, h1, h2, _, _, h5, _, h7, _⟩ :=
    C14_press_idempotent (MusicPlayer.mk 0 1 2 2)
      ⟨[.PausedState, .PlayState, .StoppedState], []⟩ .StoppedState .Play
      (by intro s; cases s <;> rfl) rfl
  exact ⟨p1, w1, w2, h1, h2, h5, by simp [h7]⟩

end StatePattern

/-! ## Theorems on `src/chain_of_responsibility.cpp` -/

namespace ChainOfResponsibility

/-- An amount above a limit is not below a smaller limit. -/
theorem not_le_1000_of_not_le_10000 (x : Double) (h : x.le (.finite 10000) = false) :
    x.le (.finite 1000) = false := by
  cases x with
  | nan => rfl
  | negInf => simp [Double.le] at h
  | posInf => rfl
  | finite q =>
    simp only [Double.le, decide_eq_false_iff_not, not_le] at h ⊢
    linarith

/-- The comparison `10000 < x` excludes `x <= 10000`. -/
theorem not_le_of_lt (k : ℚ) (x : Double) (h : Double.lt (.finite k) x = true) :
    x.le (.finite k) = false := by
  cases x with
  | nan => rfl
  | negInf => simp [Double.lt] at h
  | posInf => rfl
  | finite q =>
    simp only [Double.lt, decide_eq_true_eq] at h
    simp only [Double.le, decide_eq_false_iff_not, not_le]
    exact h

/-- One call of `approve` on an object: the handler approves when its limit
admits the amount, and forwards otherwise. -/
theorem approve_step (fuel self : Nat) (amount : Double) (w : World) (o : Approver)
    (ho : w.heap[self]? = some o) :
    approve (fuel + 1) self amount w =
      if admits o.cls amount then
        some (cout { w with calls := w.calls ++ [self] } (.approved o.cls amount))
      else forward (approve fuel) o.nextApprover amount { w with calls := w.calls ++ [self] } := by
  obtain ⟨c, n⟩ := o
  cases c <;> simp [approve, ho, admits]

/-- The chain that starts at a pointer is determined by the heap. -/
theorem IsChain_unique (heap : List Approver) :
    ∀ (p1 p2 : List Nat) (s : Option Nat), IsChain heap s p1 → IsChain heap s p2 → p1 = p2 := by
  intro p1
  induction p1 with
  | nil =>
    intro p2 s h1 h2
    cases s with
    | none => cases p2 with
      | nil => rfl
      | cons b r => simp [IsChain] at h2
    | some a => simp [IsChain] at h1
  | cons b rest ih =>
    intro p2 s h1 h2
    cases s with
    | none => simp [IsChain] at h1
    | some a =>
      cases p2 with
      | nil => simp [IsChain] at h2
      | cons c r =>
        simp only [IsChain] at h1 h2
        obtain ⟨e1, h1⟩ := h1
        obtain ⟨e2, h2⟩ := h2
        subst e1
        subst e2
        cases ho : heap[a]? with
        | none => simp [ho] at h1
        | some o =>
          simp only [ho] at h1 h2
          rw [ih r o.nextApprover h1 h2]

/-- Every address of a chain starts the rest of the chain. -/
theorem IsChain_suffix (heap : List Approver) :
    ∀ (l1 : List Nat) (a : Nat) (l2 : List Nat) (s : Option Nat),
      IsChain heap s (l1 ++ a :: l2) → IsChain heap (some a) (a :: l2) := by
  intro l1
  induction l1 with
  | nil =>
    intro a l2 s h
    cases s with
    | none => simp [IsChain] at h
    | some b =>
      simp only [List.nil_append, IsChain] at h
      obtain ⟨e, h⟩ := h
      subst e
      simp only [IsChain, true_and]
      exact h
  | cons c l1 ih =>
    intro a l2 s h
    cases s with
    | none => simp [IsChain] at h
    | some b =>
      simp only [List.cons_append, IsChain] at h
      obtain ⟨e, h⟩ := h
      subst e
      cases ho : heap[b]? with
      | none => simp [ho] at h
      | some o =>
        simp only [ho] at h
        exact ih a l2 o.nextApprover h

/-- A chain that ends visits no address twice. -/
theorem IsChain_nodup (heap : List Approver) :
    ∀ (path : List Nat) (s : Option Nat), IsChain heap s path → path.Nodup := by
  intro path
  induction path with
  | nil => intro s _; exact List.nodup_nil
  | cons b rest ih =>
    intro s h
    cases s with
    | none => simp [IsChain] at h
    | some a =>
      have hfull := h
      simp only [IsChain] at h
      obtain ⟨e, h⟩ := h
      subst e
      cases ho : heap[a]? with
      | none => simp [ho] at h
      | some o =>
        simp only [ho] at h
        refine List.nodup_cons.mpr ⟨?_, ih o.nextApprover h⟩
        intro hmem
        obtain ⟨l1, l2, hsplit⟩ := List.append_of_mem hmem
        rw [hsplit] at h
        have hsuf := IsChain_suffix heap l1 a l2 o.nextApprover h
        have heq := IsChain_unique heap _ _ _ hsuf hfull
        have hlen := congrArg List.length heq
        rw [hsplit] at hlen
        simp at hlen
        omega

/-- A request entered at the head of a chain, in closed form: the call
returns, the heap is as before, and either the first handler of the chain
whose limit admits the amount is the last one invoked and writes the one
approval, or no handler admits the amount, all are invoked and nothing is
written. -/
theorem approve_chain (amount : Double) :
    ∀ (path : List Nat) (start : Nat) (w : World) (fuel : Nat),
      IsChain w.heap (some start) path → path.length ≤ fuel →
      ∃ w1, approve fuel start amount w = some w1 ∧ w1.heap = w.heap ∧
        match path.find? (admitsAt w.heap amount) with
        | some a => ∃ o, w.heap[a]? = some o ∧ admits o.cls amount = true ∧
            w1.out = w.out ++ [.approved o.cls amount] ∧
            w1.calls = w.calls ++ path.takeWhile (fun b => !admitsAt w.heap amount b) ++ [a]
        | none => w1.out = w.out ∧ w1.calls = w.calls ++ path := by
  intro path
  induction path with
  | nil => intro start w fuel h; simp [IsChain] at h
  | cons b rest ih =>
    intro start w fuel h hfuel
    simp only [IsChain] at h
    obtain ⟨e, h⟩ := h
    subst e
    cases ho : w.heap[start]? with
    | none => simp [ho] at h
    | some o =>
      simp only [ho] at h
      obtain ⟨f, rfl⟩ : ∃ f, fuel = f + 1 := ⟨fuel - 1, by simp at hfuel; omega⟩
      rw [approve_step f start amount w o ho]
      by_cases hadm : admits o.cls amount = true
      · have hA : admitsAt w.heap amount start = true := by simp [admitsAt, ho, hadm]
        rw [if_pos hadm, List.find?_cons_of_pos _ hA]
        refine ⟨_, rfl, rfl, o, ho, hadm, rfl, ?_⟩
        rw [List.takeWhile_cons_of_neg (by simp [hA])]
        simp [cout]
      · have hA : ¬ admitsAt w.heap amount start = true := by simp [admitsAt, ho, hadm]
        rw [if_neg hadm, List.find?_cons_of_neg _ hA,
          List.takeWhile_cons_of_pos (by simpa using hA)]
        cases hn : o.nextApprover with
        | none =>
          rw [hn] at h
          cases rest with
          | nil => exact ⟨_, rfl, rfl, by simp⟩
          | cons c r => simp [IsChain] at h
        | some n =>
          rw [hn] at h
          have hlen : rest.length ≤ f := by simp at hfuel; omega
          obtain ⟨w1, h1, hheap, hres⟩ :=
            ih n { w with calls := w.calls ++ [start] } f h hlen
          refine ⟨w1, h1, hheap, ?_⟩
          simp only at hres
          cases hfind : rest.find? (admitsAt w.heap amount) with
          | none =>
            rw [hfind] at hres
            simpa using hres
          | some a =>
            rw [hfind] at hres
            obtain ⟨o1, h2, h3, h4, h5⟩ := hres
            exact ⟨o1, h2, h3, h4, by simpa using h5⟩

/-- A request entered at the head of a chain: either the chain splits at the
first handler whose limit admits the amount, that handler writes the one
approval and is the last one invoked, or no handler admits the amount, every
handler is invoked once and nothing is written. -/
theorem approve_chain_split (amount : Double) (path : List Nat) (start : Nat) (w : World)
    (fuel : Nat) (hchain : IsChain w.heap (some start) path) (hfuel : path.length ≤ fuel) :
    ∃ w1, approve fuel start amount w = some w1 ∧ w1.heap = w.heap ∧
      ((∃ pre a post o, path = pre ++ a :: post ∧
          (∀ b ∈ pre, admitsAt w.heap amount b = false) ∧
          w.heap[a]? = some o ∧ admits o.cls amount = true ∧
          w1.out = w.out ++ [.approved o.cls amount] ∧ w1.calls = w.calls ++ pre ++ [a]) ∨
       ((∀ b ∈ path, admitsAt w.heap amount b = false) ∧
          w1.out = w.out ∧ w1.calls = w.calls ++ path)) := by
  obtain ⟨w1, h1, hheap, hres⟩ := approve_chain amount path start w fuel hchain hfuel
  refine ⟨w1, h1, hheap, ?_⟩
  cases hfind : path.find? (admitsAt w.heap amount) with
  | none =>
    rw [hfind] at hres
    right
    refine ⟨?_, hres⟩
    intro b hb
    have := List.find?_eq_none.mp hfind b hb
    simpa using this
  | some a =>
    rw [hfind] at hres
    obtain ⟨o, h2, h3, h4, h5⟩ := hres
    obtain ⟨ha, pre, post, hsplit, hpre⟩ := List.find?_eq_some.mp hfind
    left
    refine ⟨pre, a, post, o, hsplit, ?_, h2, h3, h4, ?_⟩
    · intro b hb
      simpa using hpre b hb
    · rw [h5, hsplit, List.takeWhile_append_of_pos (fun b hb => by simpa using hpre b hb),
        List.takeWhile_cons_of_neg (by simp [ha])]
      simp

/-- The chain of `main` in closed form: the three objects follow the old heap,
linked Manager → Director → CEO. -/
theorem buildChain_eq (w : World) :
    buildChain w = some
      (w.heap.length,
       { w with heap := w.heap ++
          [⟨.Manager, some (w.heap.length + 1)⟩, ⟨.Director, some (w.heap.length + 2)⟩,
           ⟨.CEO, none⟩] }) := by
  obtain ⟨h1, h2, _⟩ := getElem?_append_three w.heap (Approver.mk .Manager none)
    (Approver.mk .Director none) (Approver.mk .CEO none)
  have e : w.heap ++ [Approver.mk .Manager none] ++ [Approver.mk .Director none] ++
      [Approver.mk .CEO none] = w.heap ++ [⟨.Manager, none⟩, ⟨.Director, none⟩, ⟨.CEO, none⟩] := by
    simp
  simp only [buildChain, make_shared, List.length_append, List.length_singleton, e, setNext, h1]
  have h3 : ((w.heap ++ [Approver.mk .Manager none, ⟨.Director, none⟩, ⟨.CEO, none⟩]).set
      w.heap.length ⟨.Manager, some (w.heap.length + 1)⟩) =
      w.heap ++ [⟨.Manager, some (w.heap.length + 1)⟩, ⟨.Director, none⟩, ⟨.CEO, none⟩] := by
    rw [List.set_append_right _ _ (le_refl _)]
    simp
  simp only [h3]
  obtain ⟨_, h4, _⟩ := getElem?_append_three w.heap
    (Approver.mk .Manager (some (w.heap.length + 1))) (Approver.mk .Director none)
    (Approver.mk .CEO none)
  simp only [h4]
  have h5 : ((w.heap ++ [Approver.mk .Manager (some (w.heap.length + 1)), ⟨.Director, none⟩,
      ⟨.CEO, none⟩]).set (w.heap.length + 1) ⟨.Director, some (w.heap.length + 1 + 1)⟩) =
      w.heap ++ [⟨.Manager, some (w.heap.length + 1)⟩, ⟨.Director, some (w.heap.length + 2)⟩,
        ⟨.CEO, none⟩] := by
    rw [List.set_append_right _ _ (Nat.le_add_right _ _)]
    simp
  simp only [h5]

/-- The invocations that the demo chain makes for an amount. -/
theorem approve_demo (l : List Approver) (out : List Line) (calls : List Nat)
    (amount : Double) (fuel : Nat) :
    approve (fuel + 3) l.length amount
      { heap := l ++ [⟨.Manager, some (l.length + 1)⟩, ⟨.Director, some (l.length + 2)⟩,
          ⟨.CEO, none⟩], out := out, calls := calls } =
    some
      { heap := l ++ [⟨.Manager, some (l.length + 1)⟩, ⟨.Director, some (l.length + 2)⟩,
          ⟨.CEO, none⟩],
        out := out ++ [.approved (ladder amount) amount],
        calls := calls ++
          (match ladder amount with
           | .Manager => [l.length]
           | .Director => [l.length, l.length + 1]
           | .CEO => [l.length, l.length + 1, l.length + 2]) } := by
  obtain ⟨h1, h2, h3⟩ := getElem?_append_three l
    (Approver.mk .Manager (some (l.length + 1))) (Approver.mk .Director (some (l.length + 2)))
    (Approver.mk .CEO none)
  by_cases hM : amount.le (.finite 1000) = true
  · simp [approve, h1, hM, ladder, cout]
  · by_cases hD : amount.le (.finite 10000) = true
    · simp [approve, h1, h2, hM, hD, ladder, cout, forward]
    · simp [approve, h1, h2, h3, hM, hD, ladder, cout, forward]

/-- The ladder picks the Director exactly between the two limits. -/
theorem ladder_director_iff (amount : Double) :
    ladder amount = .Director ↔
      (Double.lt (.finite 1000) amount = true ∧ amount.le (.finite 10000) = true) := by
  cases amount with
  | nan => simp [ladder, Double.le, Double.lt]
  | negInf => simp [ladder, Double.le, Double.lt]
  | posInf => simp [ladder, Double.le, Double.lt]
  | finite q =>
    by_cases h1 : q ≤ 1000
    · simp [ladder, Double.le, Double.lt, h1]
    · by_cases h2 : q ≤ 10000
      · simp [ladder, Double.le, Double.lt, h1, h2, not_le.mp h1]
      · simp [ladder, Double.le, Double.lt, h1, h2]

/-- Claim C4: for the chain Manager → Director → CEO that `main` builds, in
any world, and for every amount, `approve` entered at the manager returns,
changes no object, and writes exactly one approval, by the approver that the
if-else ladder picks: the Manager exactly when `amount <= 1000`, the Director
exactly when `1000 < amount <= 10000`, the CEO otherwise; 500 is approved by
the Manager, 3000 by the Director, 20000 by the CEO. -/
theorem C4_demo_chain_is_ladder (w : World) (amount : Double) (fuel : Nat) :
    ∃ manager w1 w2, buildChain w = some (manager, w1) ∧
      approve (fuel + 3) manager amount w1 = some w2 ∧
      w2.heap = w1.heap ∧
      w2.out = w1.out ++ [.approved (ladder amount) amount] ∧
      (ladder amount = .Manager ↔ amount.le (.finite 1000) = true) ∧
      (ladder amount = .Director ↔
        (Double.lt (.finite 1000) amount = true ∧ amount.le (.finite 10000) = true)) ∧
      (ladder amount = .CEO ↔
        (¬ amount.le (.finite 1000) = true ∧
         ¬ (Double.lt (.finite 1000) amount = true ∧ amount.le (.finite 10000) = true))) ∧
      ladder (.finite 500) = .Manager ∧ ladder (.finite 3000) = .Director ∧
      ladder (.finite 20000) = .CEO ∧
      (main (fuel + 3) w).map (fun r => r.out) = some (w.out ++
        [.requesting (.finite 500), .approved .Manager (.finite 500),
         .requesting (.finite 3000), .approved .Director (.finite 3000),
         .requesting (.finite 20000), .approved .CEO (.finite 20000)]) := by
  refine ⟨_, _, _, buildChain_eq w, approve_demo w.heap w.out w.calls amount fuel, rfl, rfl,
    ?_, ladder_director_iff amount, ?_, by decide, by decide, by decide, ?_⟩
  · by_cases hM : amount.le (.finite 1000) = true
    · simp [ladder, hM]
    · by_cases hD : amount.le (.finite 10000) = true <;> simp [ladder, hM, hD]
  · rw [← ladder_director_iff]
    by_cases hM : amount.le (.finite 1000) = true
    · simp [ladder, hM]
    · by_cases hD : amount.le (.finite 10000) = true <;> simp [ladder, hM, hD]
  · have e500 : ladder (.finite 500) = .Manager := by decide
    have e3000 : ladder (.finite 3000) = .Director := by decide
    have e20000 : ladder (.finite 20000) = .CEO := by decide
    simp [main, buildChain_eq, requestAll, cout, approve_demo, e500, e3000, e20000]

/-- Claim C5: for every chain of handlers that ends, every amount and enough
fuel, `approve` entered at the head returns and changes no object; no address
occurs twice in the chain; and either the chain splits at a handler whose
limit admits the amount while no handler before it does, that handler writes
the only approval and is the last handler invoked, the ones invoked before
it being exactly its predecessors in chain order; or no handler admits the
amount and nothing is written.  In both cases at most one line is written. -/
theorem C5_first_admitting_handler (w : World) (start : Nat) (path : List Nat)
    (amount : Double) (fuel : Nat)
    (hchain : IsChain w.heap (some start) path) (hfuel : path.length ≤ fuel) :
    ∃ w1, approve fuel start amount w = some w1 ∧ w1.heap = w.heap ∧ path.Nodup ∧
      w1.out.length ≤ w.out.length + 1 ∧
      ((∃ pre a post o, path = pre ++ a :: post ∧
          (∀ b ∈ pre, admitsAt w.heap amount b = false) ∧
          w.heap[a]? = some o ∧ admits o.cls amount = true ∧
          w1.out = w.out ++ [.approved o.cls amount] ∧ w1.calls = w.calls ++ pre ++ [a]) ∨
       ((∀ b ∈ path, admitsAt w.heap amount b = false) ∧
          w1.out = w.out ∧ w1.calls = w.calls ++ path)) := by
  obtain ⟨w1, h1, hheap, hres⟩ := approve_chain_split amount path start w fuel hchain hfuel
  refine ⟨w1, h1, hheap, IsChain_nodup _ _ _ hchain, ?_, hres⟩
  rcases hres with ⟨_, _, _, _, _, _, _, _, hout, _⟩ | ⟨_, hout, _⟩ <;> simp [hout]

/-- Claim C5 at the chain Director → Manager → CEO and the amount 500, which
the Director and the Manager both admit: the Director, first in the chain,
approves. -/
theorem C5_first_admitting_handler_witness :
    ∃ w1, approve 3 0 (.finite 500)
        ⟨[⟨.Director, some 1⟩, ⟨.Manager, some 2⟩, ⟨.CEO, none⟩], [], []⟩ = some w1 ∧
      w1.out = [.approved .Director (.finite 500)] ∧ w1.calls = [0] := by
  obtain ⟨w1, h1, _⟩ := C5_first_admitting_handler
    ⟨[⟨.Director, some 1⟩, ⟨.Manager, some 2⟩, ⟨.CEO, none⟩], [], []⟩ 0 [0, 1, 2]
    (.finite 500) 3 (by simp [IsChain]) (by simp)
  refine ⟨w1, h1, ?_⟩
  have h2 : approve 3 0 (.finite 500)
      ⟨[⟨.Director, some 1⟩, ⟨.Manager, some 2⟩, ⟨.CEO, none⟩], [], []⟩ =
      some ⟨[⟨.Director, some 1⟩, ⟨.Manager, some 2⟩, ⟨.CEO, none⟩],
        [.approved .Director (.finite 500)], [0]⟩ := by decide
  rw [h2] at h1
  cases h1
  exact ⟨rfl, rfl⟩

/-- Claim C6 as stated fails: on the chain Manager → Director without a CEO,
the amount 20000 makes `approve` invoke both handlers and return with nothing
written and no object changed.  The call has no return value, so no
`Unhandled` outcome reaches the caller. -/
theorem C6_no_unhandled_outcome :
    approve 2 0 (.finite 20000) ⟨[⟨.Manager, some 1⟩, ⟨.Director, none⟩], [], []⟩ =
      some ⟨[⟨.Manager, some 1⟩, ⟨.Director, none⟩], [], [0, 1]⟩ := by
  decide

/-- Claim C6 as amended: on a chain Manager → Director with no further
handler and for an amount above 10000, `approve` entered at the manager
returns after invoking the two handlers, writes nothing and changes no
object: the request is dropped silently.  A request the chain approves is
told apart only by the approval line it writes: an amount of at most 10000
makes the same call write exactly one approval. -/
theorem C6_silent_drop (w : World) (m d : Nat) (amount : Double) (fuel : Nat)
    (hm : w.heap[m]? = some ⟨.Manager, some d⟩) (hd : w.heap[d]? = some ⟨.Director, none⟩)
    (hamt : Double.lt (.finite 10000) amount = true) :
    approve (fuel + 2) m amount w = some { w with calls := w.calls ++ [m, d] } ∧
    ∀ other : Double, other.le (.finite 10000) = true →
      ∃ w1 who, approve (fuel + 2) m other w = some w1 ∧ w1.heap = w.heap ∧
        w1.out = w.out ++ [.approved who other] := by
  have hD := not_le_of_lt 10000 amount hamt
  have hM := not_le_1000_of_not_le_10000 amount hD
  refine ⟨by simp [approve, hm, hd, hD, hM, forward], ?_⟩
  intro other hle
  by_cases h1 : other.le (.finite 1000) = true
  · exact ⟨cout { w with calls := w.calls ++ [m] } (.approved .Manager other), .Manager,
      by simp [approve, hm, h1], rfl, rfl⟩
  · exact ⟨cout { w with calls := w.calls ++ [m, d] } (.approved .Director other), .Director,
      by simp [approve, hm, hd, h1, hle, forward], rfl, rfl⟩

/-- Claim C6 as amended, at the chain Manager → Director and the amount 20000. -/
theorem C6_silent_drop_witness :
    approve 2 0 (.finite 20000) ⟨[⟨.Manager, some 1⟩, ⟨.Director, none⟩], [], []⟩ =
      some ⟨[⟨.Manager, some 1⟩, ⟨.Director, none⟩], [], [0, 1]⟩ :=
  (C6_silent_drop ⟨[⟨.Manager, some 1⟩, ⟨.Director, none⟩], [], []⟩ 0 1 (.finite 20000) 0
    rfl rfl (by decide)).1

/-- Claim C7: for every chain that ends and every amount that no handler of
the chain admits, so that the chain has no CEO, `approve` entered at the head
returns for every fuel of at least the length of the chain; the handlers
invoked are those of the chain, in chain order, each once; nothing is written
and no object, so no `nextApprover`, is changed. -/
theorem C7_unadmitted_request_dropped (w : World) (start : Nat) (path : List Nat)
    (amount : Double) (fuel : Nat)
    (hchain : IsChain w.heap (some start) path)
    (hnone : ∀ a ∈ path, admitsAt w.heap amount a = false)
    (hfuel : path.length ≤ fuel) :
    approve fuel start amount w = some { w with calls := w.calls ++ path } ∧
    path.Nodup ∧ (∀ a ∈ path, classAt w.heap a ≠ some .CEO) := by
  obtain ⟨w1, h1, hheap, hres⟩ := approve_chain_split amount path start w fuel hchain hfuel
  refine ⟨?_, IsChain_nodup _ _ _ hchain, ?_⟩
  · rcases hres with ⟨pre, a, post, o, hsplit, _, ho, hadm, _, _⟩ | ⟨_, hout, hcalls⟩
    · have := hnone a (by simp [hsplit])
      simp [admitsAt, ho, hadm] at this
    · rw [h1]
      obtain ⟨hp, op, cs⟩ := w1
      simp only at hheap hout hcalls
      subst hheap
      subst hout
      subst hcalls
      rfl
  · intro a ha hcls
    have h2 := hnone a ha
    simp only [classAt] at hcls
    cases ho : w.heap[a]? with
    | none => simp [ho] at hcls
    | some o =>
      simp only [ho, Option.map_some', Option.some.injEq] at hcls
      simp [admitsAt, ho, hcls, admits] at h2

/-- Claim C7 at the chain Manager → Director and the amount 20000. -/
theorem C7_unadmitted_request_dropped_witness :
    approve 2 0 (.finite 20000) ⟨[⟨.Manager, some 1⟩, ⟨.Director, none⟩], [], []⟩ =
      some ⟨[⟨.Manager, some 1⟩, ⟨.Director, none⟩], [], [0, 1]⟩ :=
  (C7_unadmitted_request_dropped ⟨[⟨.Manager, some 1⟩, ⟨.Director, none⟩], [], []⟩ 0 [0, 1]
    (.finite 20000) 2 (by simp [IsChain]) (by decide) (by simp)).1

/-- Claim C8: for every chain that ends and has a CEO in it, every amount and
enough fuel, `approve` entered at the head returns, changes no object and
writes exactly one approval, by the CEO or by a handler before it; the
handlers invoked are an initial part of the chain up to the CEO at most, so
no handler linked after the CEO is invoked. -/
theorem C8_ceo_catches_all (w : World) (start : Nat) (pre : List Nat) (c : Nat)
    (post : List Nat) (amount : Double) (fuel : Nat)
    (hchain : IsChain w.heap (some start) (pre ++ c :: post))
    (hceo : classAt w.heap c = some .CEO)
    (hfuel : (pre ++ c :: post).length ≤ fuel) :
    ∃ w1 a o visited, approve fuel start amount w = some w1 ∧ w1.heap = w.heap ∧
      a ∈ pre ++ [c] ∧ w.heap[a]? = some o ∧
      w1.out = w.out ++ [.approved o.cls amount] ∧
      w1.calls = w.calls ++ visited ∧ visited <+: pre ++ [c] ∧
      visited.getLast? = some a ∧ ∀ b ∈ post, b ∉ visited := by
  have hnodup := IsChain_nodup _ _ _ hchain
  have hc : admitsAt w.heap amount c = true := by
    simp only [classAt] at hceo
    cases ho : w.heap[c]? with
    | none => simp [ho] at hceo
    | some o =>
      simp only [ho, Option.map_some', Option.some.injEq] at hceo
      simp [admitsAt, ho, hceo, admits]
  obtain ⟨w1, h1, hheap, hres⟩ :=
    approve_chain_split amount (pre ++ c :: post) start w fuel hchain hfuel
  rcases hres with ⟨l1, a, l2, o, hsplit, hl1, ho, _, hout, hcalls⟩ | ⟨hall, _, _⟩
  · have hpre : l1 ++ [a] <+: pre ++ [c] := by
      rcases List.append_eq_append_iff.mp hsplit with ⟨t, h3, h4⟩ | ⟨t, h3, h4⟩
      · cases t with
        | nil =>
          simp only [List.nil_append] at h4
          simp only [List.append_nil] at h3
          cases h4
          subst h3
          exact List.prefix_refl _
        | cons x t =>
          simp only [List.cons_append, List.cons.injEq] at h4
          obtain ⟨hcx, _⟩ := h4
          subst hcx
          have := hl1 c (by simp [h3])
          rw [hc] at this
          cases this
      · cases t with
        | nil =>
          simp only [List.nil_append] at h4
          simp only [List.append_nil] at h3
          cases h4
          subst h3
          exact List.prefix_refl _
        | cons x t =>
          simp only [List.cons_append, List.cons.injEq] at h4
          obtain ⟨hax, _⟩ := h4
          subst hax
          rw [h3]
          exact ⟨t ++ [c], by simp⟩
    refine ⟨w1, a, o, l1 ++ [a], h1, hheap, ?_, ho, hout, ?_, hpre, by simp, ?_⟩
    · exact hpre.subset (by simp)
    · rw [hcalls, List.append_assoc]
    · intro b hb hvis
      have hb2 : b ∈ pre ++ [c] := hpre.subset hvis
      have hdis : (pre ++ [c] ++ post).Nodup := by simpa using hnodup
      exact (List.disjoint_of_nodup_append hdis) hb2 hb
  · have := hall c (by simp)
    rw [hc] at this
    cases this

/-- Claim C8 at the chain Manager → CEO → Director and the amount 20000: the
CEO approves and the Director after it is not invoked. -/
theorem C8_ceo_catches_all_witness :
    ∃ w1 a o visited, approve 3 0 (.finite 20000)
        ⟨[⟨.Manager, some 1⟩, ⟨.CEO, some 2⟩, ⟨.Director, none⟩], [], []⟩ = some w1 ∧
      a ∈ [0] ++ [1] ∧
      (World.mk [⟨.Manager, some 1⟩, ⟨.CEO, some 2⟩, ⟨.Director, none⟩] [] []).heap[a]? = some o ∧
      w1.out = [.approved o.cls (.finite 20000)] ∧ w1.calls = visited ∧ 2 ∉ visited := by
  obtain ⟨w1, a, o, visited, h1, _, h2, h3, h4, h5, _, _, h6⟩ := C8_ceo_catches_all
    ⟨[⟨.Manager, some 1⟩, ⟨.CEO, some 2⟩, ⟨.Director, none⟩], [], []⟩ 0 [0] 1 [2]
    (.finite 20000) 3 (by simp [IsChain]) (by decide) (by simp)
  exact ⟨w1, a, o, visited, h1, h2, h3, by simpa using h4, by simpa using h5,
    h6 2 (by simp)⟩

end ChainOfResponsibility

/-! ## Theorems on `src/flyweight_pattern.cpp` -/

namespace Flyweight

/-- After `mp[key] = v` the key is found with the value `v`. -/
theorem find_assign_same (mp : UMap) (key : String) (v : Option Nat) :
    UMap.find (UMap.assign mp key v) key = some v := by
  induction mp with
  | nil => simp [UMap.assign, UMap.find]
  | cons e rest ih =>
    obtain ⟨k, v0⟩ := e
    by_cases h : k = key
    · simp [UMap.assign, UMap.find, h]
    · simp [UMap.assign, UMap.find, h, ih]

/-- The assignment `mp[key] = v` leaves the other keys as they are. -/
theorem find_assign_other (mp : UMap) (key other : String) (v : Option Nat)
    (hne : other ≠ key) :
    UMap.find (UMap.assign mp key v) other = UMap.find mp other := by
  induction mp with
  | nil =>
    have : ¬ key = other := fun e => hne e.symm
    simp [UMap.assign, UMap.find, this]
  | cons e rest ih =>
    obtain ⟨k, v0⟩ := e
    by_cases h : k = key
    · subst h
      have : ¬ k = other := fun e => hne e.symm
      simp [UMap.assign, UMap.find, this]
    · by_cases h2 : k = other
      · subst h2
        simp [UMap.assign, UMap.find, h]
      · simp [UMap.assign, UMap.find, h, h2, ih]

/-- A call of `getPlayer` whose key is in the map: the mapped pointer is
returned, nothing else happens. -/
theorem getPlayer_present (f : PlayerFactory) (w : World) (name bowlingtype battingtype : String)
    (v : Option Nat) (h : UMap.find f.mp (hashKey name bowlingtype battingtype) = some v) :
    f.getPlayer name bowlingtype battingtype w = (v, f, w) := by
  simp [PlayerFactory.getPlayer, h, UMap.index]

/-- A call of `getPlayer` whose key is not in the map: one object is
constructed, the line is written, the key is mapped to the new object, which
is returned. -/
theorem getPlayer_absent (f : PlayerFactory) (w : World) (name bowlingtype battingtype : String)
    (h : UMap.find f.mp (hashKey name bowlingtype battingtype) = none) :
    f.getPlayer name bowlingtype battingtype w =
      (some w.heap.length,
       { p := f.p,
         mp := UMap.assign f.mp (hashKey name bowlingtype battingtype) (some w.heap.length) },
       { heap := w.heap ++ [⟨name, bowlingtype, battingtype⟩],
         out := w.out ++ ["New object created"] }) := by
  simp [PlayerFactory.getPlayer, h, UMap.index, find_assign_same, alloc, cout]

/-- A key of the map keeps its pointer through a call of `getPlayer`. -/
theorem getPlayer_keeps (f : PlayerFactory) (w : World) (name bowlingtype battingtype : String)
    (key : String) (v : Option Nat) (h : UMap.find f.mp key = some v) :
    UMap.find (f.getPlayer name bowlingtype battingtype w).2.1.mp key = some v := by
  cases hf : UMap.find f.mp (hashKey name bowlingtype battingtype) with
  | some v1 => rw [getPlayer_present f w name bowlingtype battingtype v1 hf]; exact h
  | none =>
    rw [getPlayer_absent f w name bowlingtype battingtype hf]
    have hne : key ≠ hashKey name bowlingtype battingtype := by
      intro e
      rw [e, hf] at h
      cases h
    simp only
    rw [find_assign_other _ _ _ _ hne]
    exact h

/-- A key of the map keeps its pointer through a sequence of `getPlayer` calls. -/
theorem getPlayers_keeps (reqs : List Request) :
    ∀ (f : PlayerFactory) (w : World) (key : String) (v : Option Nat),
      UMap.find f.mp key = some v → UMap.find (getPlayers f w reqs).2.1.mp key = some v := by
  induction reqs with
  | nil => intro f w key v h; exact h
  | cons r rest ih =>
    intro f w key v h
    obtain ⟨name, bowlingtype, battingtype⟩ := r
    simp only [getPlayers]
    exact ih _ _ key v (getPlayer_keeps f w name bowlingtype battingtype key v h)

/-- After a call of `getPlayer` its key is in the map with the returned pointer. -/
theorem getPlayer_found (f : PlayerFactory) (w : World) (name bowlingtype battingtype : String) :
    UMap.find (f.getPlayer name bowlingtype battingtype w).2.1.mp
      (hashKey name bowlingtype battingtype) =
    some (f.getPlayer name bowlingtype battingtype w).1 := by
  cases hf : UMap.find f.mp (hashKey name bowlingtype battingtype) with
  | some v1 => rw [getPlayer_present f w name bowlingtype battingtype v1 hf]; exact hf
  | none =>
    rw [getPlayer_absent f w name bowlingtype battingtype hf]
    exact find_assign_same _ _ _

/-- Claim C9: for every factory, every world and every triple, a `getPlayer`
call, then any sequence of further `getPlayer` calls, then a call with the
same triple: the last call returns the pointer that the first one returned and
leaves the factory and the world as they were, so it constructs nothing and
writes no line.  The first call constructs exactly one object with the
requested attributes and writes the line once when its key was not in the
map, and constructs and writes nothing when the key was in the map.  In
`main` the third call returns the object of the first and the line
"New object created" is written twice, as in the output comment. -/
theorem C9_repeated_request_shares (f : PlayerFactory) (w : World)
    (name bowlingtype battingtype : String) (between : List Request) :
    ∃ r f1 w1 rs f2 w2,
      f.getPlayer name bowlingtype battingtype w = (r, f1, w1) ∧
      getPlayers f1 w1 between = (rs, f2, w2) ∧
      f2.getPlayer name bowlingtype battingtype w2 = (r, f2, w2) ∧
      (UMap.find f.mp (hashKey name bowlingtype battingtype) = none →
        r = some w.heap.length ∧
        w1.heap = w.heap ++ [⟨name, bowlingtype, battingtype⟩] ∧
        w1.out = w.out ++ ["New object created"]) ∧
      (UMap.find f.mp (hashKey name bowlingtype battingtype) ≠ none → f1 = f ∧ w1 = w) ∧
      main ⟨[], []⟩ = some ([some 0, some 1, some 0],
        { heap := [⟨"Virat Kohli", "Right arm medium", "Right hand"⟩,
                   ⟨"Umesh Yadav", "Right arm fast", "Right hand"⟩],
          out := ["New object created", "New object created",
                  "Virat Kohli scored 40 and took 0", "Umesh Yadav scored 0 and took 4"] }) := by
  refine ⟨(f.getPlayer name bowlingtype battingtype w).1,
    (f.getPlayer name bowlingtype battingtype w).2.1,
    (f.getPlayer name bowlingtype battingtype w).2.2,
    (getPlayers (f.getPlayer name bowlingtype battingtype w).2.1
      (f.getPlayer name bowlingtype battingtype w).2.2 between).1,
    (getPlayers (f.getPlayer name bowlingtype battingtype w).2.1
      (f.getPlayer name bowlingtype battingtype w).2.2 between).2.1,
    (getPlayers (f.getPlayer name bowlingtype battingtype w).2.1
      (f.getPlayer name bowlingtype battingtype w).2.2 between).2.2, rfl, rfl, ?_, ?_, ?_,
    by decide⟩
  · exact getPlayer_present _ _ name bowlingtype battingtype _
      (getPlayers_keeps between _ _ _ _ (getPlayer_found f w name bowlingtype battingtype))
  · intro h
    rw [getPlayer_absent f w name bowlingtype battingtype h]
    exact ⟨rfl, rfl, rfl⟩
  · intro h
    cases hf : UMap.find f.mp (hashKey name bowlingtype battingtype) with
    | none => exact absurd hf h
    | some v =>
      rw [getPlayer_present f w name bowlingtype battingtype v hf]
      exact ⟨rfl, rfl⟩

/-- Claim C10 fails on the code: the requests ("Virat", "Kohli-fast", "Right")
and ("Virat-Kohli", "fast", "Right") differ in two attributes, yet both have
the key "Virat-Kohli-fast-Right"; on a new factory the second call constructs
nothing and returns the object of the first, whose attributes are not the
requested ones.  Two distinct triples, one object. -/
theorem C10_key_collision :
    (("Virat", "Kohli-fast", "Right") : Request) ≠ ("Virat-Kohli", "fast", "Right") ∧
    getPlayers PlayerFactory.new ⟨[], []⟩
      [("Virat", "Kohli-fast", "Right"), ("Virat-Kohli", "fast", "Right")] =
    ([some 0, some 0],
     { p := [], mp := [("Virat-Kohli-fast-Right", some 0)] },
     { heap := [⟨"Virat", "Kohli-fast", "Right"⟩], out := ["New object created"] }) := by
  decide

/-- The assignment `mp[key] = v` adds one entry when the key has none. -/
theorem size_assign_absent (mp : UMap) (key : String) (v : Option Nat)
    (h : UMap.find mp key = none) : UMap.size (UMap.assign mp key v) = UMap.size mp + 1 := by
  induction mp with
  | nil => simp [UMap.assign, UMap.size]
  | cons e rest ih =>
    obtain ⟨k, v0⟩ := e
    by_cases hk : k = key
    · simp [UMap.find, hk] at h
    · simp only [UMap.find, hk, if_false] at h
      have := ih h
      simp only [UMap.size] at this
      simp [UMap.assign, UMap.size, hk, this]

/-- Claim C11: for every factory, every world and every `getPlayer` call, each
key that the map holds before the call is held after it with the same
pointer, and each object of the heap is still at its address; the number of
entries does not decrease: it grows by exactly one when the requested key was
not in the map and is the same when it was. -/
theorem C11_cache_only_grows (f : PlayerFactory) (w : World)
    (name bowlingtype battingtype : String) :
    (∀ key v, UMap.find f.mp key = some v →
      UMap.find (f.getPlayer name bowlingtype battingtype w).2.1.mp key = some v) ∧
    (∀ (a : Nat) (o : PlayerFlyweight), w.heap[a]? = some o →
      (f.getPlayer name bowlingtype battingtype w).2.2.heap[a]? = some o) ∧
    UMap.size f.mp ≤ UMap.size (f.getPlayer name bowlingtype battingtype w).2.1.mp ∧
    (UMap.find f.mp (hashKey name bowlingtype battingtype) = none →
      UMap.size (f.getPlayer name bowlingtype battingtype w).2.1.mp = UMap.size f.mp + 1) ∧
    (UMap.find f.mp (hashKey name bowlingtype battingtype) ≠ none →
      UMap.size (f.getPlayer name bowlingtype battingtype w).2.1.mp = UMap.size f.mp) := by
  refine ⟨fun key v h => getPlayer_keeps f w name bowlingtype battingtype key v h, ?_, ?_, ?_, ?_⟩
  · intro a o h
    cases hf : UMap.find f.mp (hashKey name bowlingtype battingtype) with
    | some v1 => rw [getPlayer_present f w name bowlingtype battingtype v1 hf]; exact h
    | none =>
      rw [getPlayer_absent f w name bowlingtype battingtype hf]
      have hlt : a < w.heap.length := by
        by_contra hge
        rw [List.getElem?_eq_none (not_lt.mp hge)] at h
        cases h
      simp only
      rw [List.getElem?_append_left hlt]
      exact h
  · cases hf : UMap.find f.mp (hashKey name bowlingtype battingtype) with
    | some v1 => rw [getPlayer_present f w name bowlingtype battingtype v1 hf]
    | none =>
      rw [getPlayer_absent f w name bowlingtype battingtype hf]
      simp only
      rw [size_assign_absent _ _ _ hf]
      exact Nat.le_succ _
  · intro hf
    rw [getPlayer_absent f w name bowlingtype battingtype hf]
    exact size_assign_absent _ _ _ hf
  · intro hf
    cases hf2 : UMap.find f.mp (hashKey name bowlingtype battingtype) with
    | none => exact absurd hf2 hf
    | some v1 => rw [getPlayer_present f w name bowlingtype battingtype v1 hf2]

/-- Claim C12: for every object of the heap and all runs and wickets, the call
`display(runs, wickets)` through a pointer to the object returns, leaves the
heap, so the three attributes of the object, as it was, and writes one line;
the line is the same for two objects of the same name, whatever their other
attributes and the world.  Two calls on one object with different arguments
write different lines: the first player of `main` displays (40, 0) and then
(0, 4), and is unchanged. -/
theorem C12_display_reads_only (w : World) (a : Nat) (o : PlayerFlyweight) (runs wickets : Int)
    (ho : w.heap[a]? = some o) :
    (∃ w1, displayAt (some a) runs wickets w = some w1 ∧ w1.heap = w.heap ∧
      w1.heap[a]? = some o ∧
      w1.out = w.out ++ [o.name ++ " scored " ++ toString runs ++ " and took " ++
        toString wickets]) ∧
    (∀ (other : PlayerFlyweight) (w2 : World), other.name = o.name →
      (other.display runs wickets w2).out.drop w2.out.length =
        (o.display runs wickets w).out.drop w.out.length) ∧
    (∀ w3 : World, (o.display runs wickets w3).heap = w3.heap) ∧
    ((displayAt (some 0) 40 0 ⟨[⟨"Virat Kohli", "Right arm medium", "Right hand"⟩], []⟩).bind
        (displayAt (some 0) 0 4) =
      some ⟨[⟨"Virat Kohli", "Right arm medium", "Right hand"⟩],
        ["Virat Kohli scored 40 and took 0", "Virat Kohli scored 0 and took 4"]⟩) := by
  refine ⟨⟨o.display runs wickets w, by simp [displayAt, ho], rfl, ho, rfl⟩, ?_, fun _ => rfl,
    by decide⟩
  intro other w2 hname
  simp [PlayerFlyweight.display, cout, hname]

/-- Claim C12 at the first player of `main` and the arguments (40, 0). -/
theorem C12_display_reads_only_witness :
    ∃ w1, displayAt (some 0) 40 0 ⟨[⟨"Virat Kohli", "Right arm medium", "Right hand"⟩], []⟩ =
        some w1 ∧
      w1.heap = [⟨"Virat Kohli", "Right arm medium", "Right hand"⟩] ∧
      w1.out = ["Virat Kohli scored 40 and took 0"] := by
  obtain ⟨⟨w1, h1, h2, _, h4⟩, _⟩ := C12_display_reads_only
    ⟨[⟨"Virat Kohli", "Right arm medium", "Right hand"⟩], []⟩ 0
    ⟨"Virat Kohli", "Right arm medium", "Right hand"⟩ 40 0 rfl
  refine ⟨w1, h1, h2, ?_⟩
  rw [h4]
  decide

/-- The characters of the key of `getPlayer`. -/
theorem hashKey_data (name bowlingtype battingtype : String) :
    (hashKey name bowlingtype battingtype).data =
      name.data ++ '-' :: (bowlingtype.data ++ '-' :: battingtype.data) := by
  simp [hashKey]

/-- A text without '-' before a '-' is found again from the whole. -/
theorem dash_split (x : List Char) :
    ∀ (y r s : List Char), '-' ∉ x → '-' ∉ y → x ++ '-' :: r = y ++ '-' :: s →
      x = y ∧ r = s := by
  induction x with
  | nil =>
    intro y r s _ hy h
    cases y with
    | nil => simpa using h
    | cons c y =>
      simp only [List.nil_append, List.cons_append, List.cons.injEq] at h
      exact absurd (by simp [← h.1]) hy
  | cons c x ih =>
    intro y r s hx hy h
    cases y with
    | nil =>
      simp only [List.nil_append, List.cons_append, List.cons.injEq] at h
      exact absurd (by simp [h.1]) hx
    | cons d y =>
      simp only [List.cons_append, List.cons.injEq] at h
      obtain ⟨hcd, h⟩ := h
      have hx2 : '-' ∉ x := fun hm => hx (List.mem_cons_of_mem _ hm)
      have hy2 : '-' ∉ y := fun hm => hy (List.mem_cons_of_mem _ hm)
      obtain ⟨e1, e2⟩ := ih y r s hx2 hy2 h
      exact ⟨by rw [hcd, e1], e2⟩

/-- A key made of three attributes without '-' is the key of no other triple. -/
theorem hashKey_injective (n b t n1 b1 t1 : String)
    (hn : '-' ∉ n.data) (hb : '-' ∉ b.data) (ht : '-' ∉ t.data)
    (h : hashKey n1 b1 t1 = hashKey n b t) : n1 = n ∧ b1 = b ∧ t1 = t := by
  have hd := congrArg String.data h
  rw [hashKey_data, hashKey_data] at hd
  have hc := congrArg (List.count '-') hd
  simp only [List.count_append, List.count_cons_self, List.count_eq_zero.mpr hn,
    List.count_eq_zero.mpr hb, List.count_eq_zero.mpr ht] at hc
  have hn1 : '-' ∉ n1.data := by
    apply List.count_eq_zero.mp
    omega
  have hb1 : '-' ∉ b1.data := by
    apply List.count_eq_zero.mp
    omega
  obtain ⟨e1, hd2⟩ := dash_split _ _ _ _ hn1 hn hd
  obtain ⟨e2, e3⟩ := dash_split _ _ _ _ hb1 hb hd2
  exact ⟨String.ext e1, String.ext e2, String.ext e3⟩

/-- An object of the heap is still at its address after a call of `getPlayer`. -/
theorem getPlayer_heap_keeps (f : PlayerFactory) (w : World)
    (name bowlingtype battingtype : String) (a : Nat) (o : PlayerFlyweight)
    (h : w.heap[a]? = some o) :
    (f.getPlayer name bowlingtype battingtype w).2.2.heap[a]? = some o := by
  cases hf : UMap.find f.mp (hashKey name bowlingtype battingtype) with
  | some v1 => rw [getPlayer_present f w name bowlingtype battingtype v1 hf]; exact h
  | none =>
    rw [getPlayer_absent f w name bowlingtype battingtype hf]
    have hlt : a < w.heap.length := by
      by_contra hge
      rw [List.getElem?_eq_none (not_lt.mp hge)] at h
      cases h
    simp only
    rw [List.getElem?_append_left hlt]
    exact h

/-- An object of the heap is still at its address after a sequence of
`getPlayer` calls. -/
theorem getPlayers_heap_keeps (reqs : List Request) :
    ∀ (f : PlayerFactory) (w : World) (a : Nat) (o : PlayerFlyweight),
      w.heap[a]? = some o → (getPlayers f w reqs).2.2.heap[a]? = some o := by
  induction reqs with
  | nil => intro f w a o h; exact h
  | cons r rest ih =>
    intro f w a o h
    obtain ⟨name, bowlingtype, battingtype⟩ := r
    simp only [getPlayers]
    exact ih _ _ a o (getPlayer_heap_keeps f w name bowlingtype battingtype a o h)

/-- A call of `getPlayer` keeps the map consistent with the heap. -/
theorem getPlayer_consistent (f : PlayerFactory) (w : World)
    (name bowlingtype battingtype : String) (h : f.Consistent w) :
    (f.getPlayer name bowlingtype battingtype w).2.1.Consistent
      (f.getPlayer name bowlingtype battingtype w).2.2 := by
  intro key v hkey
  cases hf : UMap.find f.mp (hashKey name bowlingtype battingtype) with
  | some v1 =>
    rw [getPlayer_present f w name bowlingtype battingtype v1 hf] at hkey ⊢
    exact h key v hkey
  | none =>
    by_cases hk : key = hashKey name bowlingtype battingtype
    · rw [getPlayer_absent f w name bowlingtype battingtype hf] at hkey ⊢
      simp only at hkey ⊢
      rw [hk, find_assign_same] at hkey
      cases hkey
      exact ⟨w.heap.length, ⟨name, bowlingtype, battingtype⟩, rfl, by simp, hk.symm⟩
    · have hold : UMap.find f.mp key = some v := by
        rw [getPlayer_absent f w name bowlingtype battingtype hf] at hkey
        simp only at hkey
        rw [find_assign_other _ _ _ _ hk] at hkey
        exact hkey
      obtain ⟨a, o, hv, ho, hh⟩ := h key v hold
      exact ⟨a, o, hv, getPlayer_heap_keeps f w name bowlingtype battingtype a o ho, hh⟩

/-- A sequence of `getPlayer` calls keeps the map consistent with the heap. -/
theorem getPlayers_consistent (reqs : List Request) :
    ∀ (f : PlayerFactory) (w : World), f.Consistent w →
      (getPlayers f w reqs).2.1.Consistent (getPlayers f w reqs).2.2 := by
  induction reqs with
  | nil => intro f w h; exact h
  | cons r rest ih =>
    intro f w h
    obtain ⟨name, bowlingtype, battingtype⟩ := r
    simp only [getPlayers]
    exact ih _ _ (getPlayer_consistent f w name bowlingtype battingtype h)

/-- On a consistent factory a request without '-' returns a pointer to an
object with exactly the requested attributes. -/
theorem getPlayer_exact (f : PlayerFactory) (w : World) (n b t : String)
    (h : f.Consistent w) (hn : '-' ∉ n.data) (hb : '-' ∉ b.data) (ht : '-' ∉ t.data) :
    ∃ a, (f.getPlayer n b t w).1 = some a ∧
      (f.getPlayer n b t w).2.2.heap[a]? = some ⟨n, b, t⟩ := by
  cases hf : UMap.find f.mp (hashKey n b t) with
  | some v =>
    obtain ⟨a, o, hv, ho, hh⟩ := h _ v hf
    obtain ⟨e1, e2, e3⟩ := hashKey_injective n b t _ _ _ hn hb ht hh
    rw [getPlayer_present f w n b t v hf]
    refine ⟨a, hv, ?_⟩
    obtain ⟨o1, o2, o3⟩ := o
    simp only at e1 e2 e3
    subst e1
    subst e2
    subst e3
    exact ho
  | none =>
    rw [getPlayer_absent f w n b t hf]
    exact ⟨w.heap.length, rfl, by simp⟩

/-- Claim C13: on a factory that starts new, after any `getPlayer` calls, two
calls whose six attributes contain no '-', with any calls between them: the
two keys are equal only if the three attributes are equal one by one; each of
the two calls returns a pointer to an object that has exactly the requested
attributes, then and after the later calls; and the two pointers differ
whenever the triples differ. -/
theorem C13_keys_injective_without_dash (w0 : World) (pre mid : List Request)
    (n1 b1 t1 n2 b2 t2 : String)
    (hn1 : '-' ∉ n1.data) (hb1 : '-' ∉ b1.data) (ht1 : '-' ∉ t1.data)
    (hn2 : '-' ∉ n2.data) (hb2 : '-' ∉ b2.data) (ht2 : '-' ∉ t2.data) :
    (hashKey n1 b1 t1 = hashKey n2 b2 t2 → n1 = n2 ∧ b1 = b2 ∧ t1 = t2) ∧
    ∃ rs1 f1 w1 a1 f2 w2 rs2 f3 w3 a2 f4 w4,
      getPlayers PlayerFactory.new w0 pre = (rs1, f1, w1) ∧
      f1.getPlayer n1 b1 t1 w1 = (some a1, f2, w2) ∧
      getPlayers f2 w2 mid = (rs2, f3, w3) ∧
      f3.getPlayer n2 b2 t2 w3 = (some a2, f4, w4) ∧
      w2.heap[a1]? = some ⟨n1, b1, t1⟩ ∧
      w4.heap[a1]? = some ⟨n1, b1, t1⟩ ∧
      w4.heap[a2]? = some ⟨n2, b2, t2⟩ ∧
      ((n1, b1, t1) ≠ (n2, b2, t2) → a1 ≠ a2) := by
  refine ⟨fun h => hashKey_injective n2 b2 t2 n1 b1 t1 hn2 hb2 ht2 h, ?_⟩
  have hc0 : PlayerFactory.new.Consistent w0 := by
    intro key v h
    simp [PlayerFactory.new, UMap.find] at h
  rcases hp : getPlayers PlayerFactory.new w0 pre with ⟨rs1, f1, w1⟩
  have hc1 : f1.Consistent w1 := by
    have := getPlayers_consistent pre _ _ hc0
    rw [hp] at this
    exact this
  rcases hq : f1.getPlayer n1 b1 t1 w1 with ⟨r1, f2, w2⟩
  obtain ⟨a1, hr1, hobj1⟩ := getPlayer_exact f1 w1 n1 b1 t1 hc1 hn1 hb1 ht1
  have hc2 := getPlayer_consistent f1 w1 n1 b1 t1 hc1
  rw [hq] at hr1 hobj1 hc2
  simp only at hr1 hobj1 hc2
  subst hr1
  rcases hm : getPlayers f2 w2 mid with ⟨rs2, f3, w3⟩
  have hc3 : f3.Consistent w3 := by
    have := getPlayers_consistent mid _ _ hc2
    rw [hm] at this
    exact this
  have hobj1m : w3.heap[a1]? = some ⟨n1, b1, t1⟩ := by
    have := getPlayers_heap_keeps mid f2 w2 a1 _ hobj1
    rw [hm] at this
    exact this
  rcases hz : f3.getPlayer n2 b2 t2 w3 with ⟨r2, f4, w4⟩
  obtain ⟨a2, hr2, hobj2⟩ := getPlayer_exact f3 w3 n2 b2 t2 hc3 hn2 hb2 ht2
  have hobj1b := getPlayer_heap_keeps f3 w3 n2 b2 t2 a1 _ hobj1m
  rw [hz] at hr2 hobj2 hobj1b
  simp only at hr2 hobj2 hobj1b
  subst hr2
  refine ⟨rs1, f1, w1, a1, f2, w2, rs2, f3, w3, a2, f4, w4, rfl, hq, hm, hz, hobj1, hobj1b,
    hobj2, ?_⟩
  intro hne heq
  rw [heq, hobj2] at hobj1b
  simp only [Option.some.injEq, PlayerFlyweight.mk.injEq] at hobj1b
  exact hne (by rw [hobj1b.1, hobj1b.2.1, hobj1b.2.2])

/-- Claim C13 at the two players of `main` on a new factory. -/
theorem C13_keys_injective_without_dash_witness :
    ∃ a1 f2 w2 a2 f4 w4,
      PlayerFactory.new.getPlayer "Virat Kohli" "Right arm medium" "Right hand" ⟨[], []⟩ =
        (some a1, f2, w2) ∧
      f2.getPlayer "Umesh Yadav" "Right arm fast" "Right hand" w2 = (some a2, f4, w4) ∧
      w4.heap[a1]? = some ⟨"Virat Kohli", "Right arm medium", "Right hand"⟩ ∧
      w4.heap[a2]? = some ⟨"Umesh Yadav", "Right arm fast", "Right hand"⟩ ∧ a1 ≠ a2 := by
  obtain ⟨_, rs1, f1, w1, a1, f2, w2, rs2, f3, w3, a2, f4, w4, h1, h2, h3, h4, _, h6, h7, h8⟩ :=
    C13_keys_injective_without_dash ⟨[], []⟩ [] [] "Virat Kohli" "Right arm medium"
      "Right hand" "Umesh Yadav" "Right arm fast" "Right hand"
      (by decide) (by decide) (by decide) (by decide) (by decide) (by decide)
  simp only [getPlayers, Prod.mk.injEq] at h1 h3
  obtain ⟨_, rfl, rfl⟩ := h1
  obtain ⟨_, rfl, rfl⟩ := h3
  exact ⟨a1, _, _, a2, f4, w4, h2, h4, h6, h7, h8 (by decide)⟩

end Flyweight

/-! ## Theorems on `src/code.cpp` -/

namespace Observer

/-- The loop of `unsubscribe` in closed form: the entries other than `user`
are added to `temp` in their order. -/
theorem unsubscribeLoop_eq (user : Nat) :
    ∀ (users temp : List Nat),
      unsubscribeLoop user users temp = temp ++ users.filter (fun a => decide (a ≠ user)) := by
  intro users
  induction users with
  | nil => intro temp; simp [unsubscribeLoop]
  | cons u rest ih =>
    intro temp
    by_cases h : u = user
    · simp [unsubscribeLoop, h, ih]
    · simp [unsubscribeLoop, h, ih]

/-- The loop of `notify` over entries that all hold objects, in closed form. -/
theorem notifyLoop_eq (msg : String) :
    ∀ (users : List Nat) (w : World), (∀ a ∈ users, ∃ o, w.heap[a]? = some o) →
      notifyLoop msg users w = some
        { heap := w.heap, out := w.out ++ users.filterMap (lineAt w),
          calls := w.calls ++ users } := by
  intro users
  induction users with
  | nil => intro w _; simp [notifyLoop]
  | cons u rest ih =>
    intro w hvalid
    obtain ⟨o, ho⟩ := hvalid u (by simp)
    have hrest : ∀ a ∈ rest,
        ∃ o1, (o.notify msg { w with calls := w.calls ++ [u] }).heap[a]? = some o1 :=
      fun a ha => hvalid a (List.mem_cons_of_mem _ ha)
    have hline : lineAt (o.notify msg { w with calls := w.calls ++ [u] }) = lineAt w := rfl
    simp only [notifyLoop, ho]
    rw [ih _ hrest, hline]
    simp [User.notify, cout, lineAt, ho]

/-- Claim C15: for every group and every subscriber `user`, `unsubscribe(user)`
leaves the name and makes the list the previous one without the entries equal
to `user`, the others in their order; `user` is no longer in it, and the
group is unchanged when `user` was not subscribed.  When the entries that
remain hold objects, a following `notify` returns, changes no object, invokes
`notify` on exactly the remaining entries, once per entry in the order of the
list, and writes their lines in that order.  In `main` the three users are
notified, then the first and the third. -/
theorem C15_unsubscribe_filters (g : Group) (user : Nat) (msg : String) (w : World)
    (hvalid : ∀ a ∈ g.users, a ≠ user → ∃ o, w.heap[a]? = some o) :
    (g.unsubscribe user).users = g.users.filter (fun a => decide (a ≠ user)) ∧
    (g.unsubscribe user).name = g.name ∧
    user ∉ (g.unsubscribe user).users ∧
    (user ∉ g.users → g.unsubscribe user = g) ∧
    ∃ w1, (g.unsubscribe user).notify msg w = some w1 ∧ w1.heap = w.heap ∧
      w1.calls = w.calls ++ g.users.filter (fun a => decide (a ≠ user)) ∧
      w1.out = w.out ++ (g.users.filter (fun a => decide (a ≠ user))).filterMap (lineAt w) ∧
      main msg ⟨[], [], []⟩ = some ⟨[⟨1, ""⟩, ⟨2, ""⟩, ⟨3, ""⟩],
        ["This user with id 1 has been notified", "This user with id 2 has been notified",
         "This user with id 3 has been notified", "This user with id 1 has been notified",
         "This user with id 3 has been notified"], [0, 1, 2, 0, 2]⟩ := by
  have hu : (g.unsubscribe user).users = g.users.filter (fun a => decide (a ≠ user)) := by
    simp [Group.unsubscribe, unsubscribeLoop_eq]
  refine ⟨hu, rfl, ?_, ?_, ?_⟩
  · rw [hu]
    simp
  · intro hnot
    have hall : g.users.filter (fun a => decide (a ≠ user)) = g.users := by
      apply List.filter_eq_self.mpr
      intro a ha
      simp only [decide_eq_true_eq]
      intro e
      exact hnot (e ▸ ha)
    obtain ⟨users, name⟩ := g
    simp only [Group.unsubscribe, unsubscribeLoop_eq, List.nil_append] at hall ⊢
    rw [hall]
  · have hv : ∀ a ∈ (g.unsubscribe user).users, ∃ o, w.heap[a]? = some o := by
      intro a ha
      rw [hu] at ha
      obtain ⟨h1, h2⟩ := List.mem_filter.mp ha
      exact hvalid a h1 (by simpa using h2)
    refine ⟨_, notifyLoop_eq msg _ w hv, rfl, ?_, ?_, ?_⟩
    · simp only [hu]
    · simp only [hu]
    · simp only [main, User.new, Group.new, Group.subscribe, Group.notify, notifyLoop,
        User.notify, cout, Group.unsubscribe, unsubscribeLoop]
      decide

/-- Claim C15 at the group of `main` with its three users, for `unsubscribe`
of the second one. -/
theorem C15_unsubscribe_filters_witness :
    (Group.unsubscribe ⟨[0, 1, 2], "temp"⟩ 1).users = [0, 2] ∧
    ∃ w1, (Group.unsubscribe ⟨[0, 1, 2], "temp"⟩ 1).notify "hello"
        ⟨[⟨1, ""⟩, ⟨2, ""⟩, ⟨3, ""⟩], [], []⟩ = some w1 ∧
      w1.calls = [0, 2] ∧
      w1.out = ["This user with id 1 has been notified",
        "This user with id 3 has been notified"] := by
  obtain ⟨h1, _, _, _, w1, h5, _, h7, h8, _⟩ := C15_unsubscribe_filters ⟨[0, 1, 2], "temp"⟩ 1
    "hello" ⟨[⟨1, ""⟩, ⟨2, ""⟩, ⟨3, ""⟩], [], []⟩
    (by
      intro a ha _
      simp only [List.mem_cons, List.mem_singleton, List.not_mem_nil, or_false] at ha
      rcases ha with rfl | rfl | rfl
      · exact ⟨_, rfl⟩
      · exact ⟨_, rfl⟩
      · exact ⟨_, rfl⟩)
  refine ⟨by rw [h1]; decide, w1, h5, by rw [h7]; decide, by rw [h8]; decide⟩

end Observer

/-! ## Theorems on `src/decorator.cpp` -/

namespace Decorator

/-- The price of a pizza with one more topping. -/
theorem price_wrap (t : Topping) (pizza : BasePizza) (p : Int) (h : pizza.price = some p) :
    (t.wrap pizza).price = addInt p t.cost := by
  cases t <;> simp [Topping.wrap, BasePizza.price, h, Topping.cost]

/-- When the sums of a sequence fit, the first sum has a value and the sums of
the rest fit from there. -/
theorem Fits_cons (c : Int) (t : Topping) (rest : List Topping) (h : Fits c (t :: rest)) :
    addInt c t.cost = some (c + t.cost) ∧ Fits (c + t.cost) rest := by
  constructor
  · have h1 := h 1 (by simp)
    simp only [List.take_succ_cons, List.take_zero, totalCost, List.map_cons, List.map_nil,
      List.sum_cons, List.sum_nil, add_zero] at h1
    simp [addInt, h1]
  · intro k hk
    have h1 := h (k + 1) (by simpa using hk)
    simp only [List.take_succ_cons, totalCost, List.map_cons, List.sum_cons] at h1
    simp only [totalCost]
    constructor
    · linarith [h1.1]
    · linarith [h1.2]

/-- The price of a decorated pizza is the sum of the costs when all the sums
on the way fit. -/
theorem price_decorate :
    ∀ (toppings : List Topping) (pizza : BasePizza) (c : Int), pizza.price = some c →
      Fits c toppings → (decorate pizza toppings).price = some (c + totalCost toppings) := by
  intro toppings
  induction toppings with
  | nil => intro pizza c h _; simp [decorate, totalCost, h]
  | cons t rest ih =>
    intro pizza c h hfit
    obtain ⟨hadd, hrest⟩ := Fits_cons c t rest hfit
    have hp : (t.wrap pizza).price = some (c + t.cost) := by
      rw [price_wrap t pizza c h, hadd]
    rw [decorate, ih (t.wrap pizza) (c + t.cost) hp hrest]
    simp [totalCost, add_assoc]

set_option maxRecDepth 8000 in
/-- The text that `main` writes. -/
theorem main_eq :
    main "" = some ("This is a Margerita Pizza -> Price: 150\n" ++
      "This is a Margerita Pizza with added Cheese Topping -> Price: 160\n" ++
      "This is a Margerita Pizza with added Cheese Topping with added Paneer Topping" ++
      " -> Price: 180\n") := by
  decide

/-- Claim C16 as stated fails: a Margerita of cost 2147483647, the greatest
`int`, with a Cheese topping of cost 1 has no defined price, not the price
2147483648: the sum is not a value of `int`. -/
theorem C16_price_overflow :
    (decorate (.Margerita 2147483647) [.Cheese 1]).price = none ∧
    (decorate (.Margerita 2147483647) [.Cheese 1]).price ≠
      some (2147483647 + totalCost [.Cheese 1]) := by
  decide

/-- Claim C16 as amended: for a base pizza, Margerita or Farmhouse, of cost
`c` and a sequence of Cheese and Paneer toppings wrapped around it such that
the cost `c` and every sum `c + t1 + ... + tk` are values of `int`, `price()`
of the outermost decorator is `c + t1 + ... + tn`; it is the same for every
other order of the toppings whose sums are values of `int` too.  In `main`
the prices are 150, then 160, then 180. -/
theorem C16_price_is_sum (base : BasePizza) (c : Int) (toppings : List Topping)
    (hbase : base = .Margerita c ∨ base = .Farmhouse c) (hfit : Fits c toppings) :
    (decorate base toppings).price = some (c + totalCost toppings) ∧
    (∀ other : List Topping, other.Perm toppings → Fits c other →
      (decorate base other).price = (decorate base toppings).price) ∧
    (decorate (.Margerita 150) []).price = some 150 ∧
    (decorate (.Margerita 150) [.Cheese 10]).price = some 160 ∧
    (decorate (.Margerita 150) [.Cheese 10, .Paneer 20]).price = some 180 ∧
    main "" = some ("This is a Margerita Pizza -> Price: 150\n" ++
      "This is a Margerita Pizza with added Cheese Topping -> Price: 160\n" ++
      "This is a Margerita Pizza with added Cheese Topping with added Paneer Topping" ++
      " -> Price: 180\n") := by
  have hprice : base.price = some c := by
    rcases hbase with rfl | rfl <;> rfl
  have hsum := price_decorate toppings base c hprice hfit
  refine ⟨hsum, ?_, by decide, by decide, by decide, main_eq⟩
  intro other hperm hfit2
  rw [hsum, price_decorate other base c hprice hfit2]
  have : totalCost other = totalCost toppings := by
    simp only [totalCost]
    exact (hperm.map Topping.cost).sum_eq
  rw [this]

/-- Claim C16 as amended, at the pizza of `main`: a Margerita of cost 150 with
Cheese of cost 10 and Paneer of cost 20. -/
theorem C16_price_is_sum_witness :
    (decorate (.Margerita 150) [.Cheese 10, .Paneer 20]).price = some (150 + 30) ∧
    (decorate (.Margerita 150) [.Paneer 20, .Cheese 10]).price = some (150 + 30) := by
  have hfit : ∀ ts : List Topping, ts.length = 2 → totalCost (ts.take 1) ∈ [10, 20] →
      totalCost ts = 30 → Fits 150 ts := by
    intro ts hlen h1 h2 k hk
    have hk2 : k = 0 ∨ k = 1 ∨ k = 2 := by omega
    simp only [List.mem_cons, List.mem_singleton, List.not_mem_nil, or_false] at h1
    rcases hk2 with rfl | rfl | rfl
    · simp [totalCost, INT_MIN, INT_MAX]
    · rcases h1 with h1 | h1 <;> simp [h1, INT_MIN, INT_MAX]
    · rw [List.take_of_length_le (by omega), h2]
      simp [INT_MIN, INT_MAX]
  have hA := hfit [.Cheese 10, .Paneer 20] rfl (by decide) (by decide)
  have hB := hfit [.Paneer 20, .Cheese 10] rfl (by decide) (by decide)
  obtain ⟨h1, h2, _⟩ := C16_price_is_sum (.Margerita 150) 150 [.Cheese 10, .Paneer 20]
    (Or.inl rfl) hA
  have h30 : totalCost [.Cheese 10, .Paneer 20] = 30 := by decide
  rw [h30] at h1
  refine ⟨h1, ?_⟩
  rw [h2 [.Paneer 20, .Cheese 10] (List.Perm.swap _ _ _) hB, h1]

end Decorator

/-! ## Theorems on `src/factory_pattern.cpp` -/

namespace FactoryPattern

/-- Claim C17 fails on the code for a word other than "Car" and "Bus": in any
world, `createVehicle("Car")` and `createVehicle("Bus")` return a pointer to a
new Car and a new Bus, on which `main` calls `drive()`; `createVehicle("Truck")`
creates no object and returns the pointer `vehicle` without a value, and the
call `vehicle->drive()` of `main` has no defined result. -/
theorem C17_unknown_type_no_vehicle (w : World) :
    createVehicle "Car" w = (some w.heap.length, ⟨w.heap ++ [.Car], w.out⟩) ∧
    main "Car" w = some ⟨w.heap ++ [.Car], w.out ++ ["Car is driving"]⟩ ∧
    createVehicle "Bus" w = (some w.heap.length, ⟨w.heap ++ [.Bus], w.out⟩) ∧
    main "Bus" w = some ⟨w.heap ++ [.Bus], w.out ++ ["Bus is driving"]⟩ ∧
    createVehicle "Truck" w = (none, w) ∧
    main "Truck" w = none := by
  have hC : ¬ ("Bus" = "Car") := by decide
  have hT1 : ¬ ("Truck" = "Car") := by decide
  have hT2 : ¬ ("Truck" = "Bus") := by decide
  refine ⟨?_, ?_, ?_, ?_, ?_, ?_⟩
  · simp [createVehicle, alloc]
  · simp [main, createVehicle, alloc, Vehicle.drive, cout]
  · simp [createVehicle, alloc]
  · simp [main, createVehicle, alloc, Vehicle.drive, cout]
  · simp [createVehicle]
  · simp [main, createVehicle]

end FactoryPattern
